import Mathlib

/-!
A shallow embedding of the exif-sort image sorter (exif_sort/sorter.py) and
proofs about it.  Paths are modelled as lists of segments, the filesystem and
the external collaborators (EXIF classification, the actual file move) as
explicit data, and the threaded sorter as explicit state passing plus a step
relation for the event loop.
-/

/-- Index of the last occurrence of a dot in a list of characters, mirroring
Python's str.rfind applied to a dot. -/
def lastDotIdx (cs : List Char) : Option Nat :=
  ((List.range cs.length).filter (fun i => cs.getD i ' ' = '.')).getLast?

/-- Python pathlib stem of a final path component: everything before the last
dot, provided that dot is neither the leading character nor the trailing one. -/
def pyStem (name : String) : String :=
  let cs := name.data
  match lastDotIdx cs with
  | some i => if 0 < i ∧ i < cs.length - 1 then ⟨cs.take i⟩ else name
  | none => name

/-- Python pathlib suffix of a final path component: the last dot and what
follows it, provided that dot is neither leading nor trailing. -/
def pySuffix (name : String) : String :=
  let cs := name.data
  match lastDotIdx cs with
  | some i => if 0 < i ∧ i < cs.length - 1 then ⟨cs.drop i⟩ else ""
  | none => ""

/-- A filesystem path, as its list of segments. -/
structure FsPath where
  segments : List String
deriving DecidableEq, Repr

/-- pathlib joinpath with a single extra component. -/
def FsPath.joinpath (p : FsPath) (s : String) : FsPath :=
  ⟨p.segments ++ [s]⟩

/-- pathlib name: the final component. -/
def FsPath.name (p : FsPath) : String :=
  p.segments.getLast?.getD ""

/-- pathlib parent: the path without its final component. -/
def FsPath.parent (p : FsPath) : FsPath :=
  ⟨p.segments.dropLast⟩

/-- pathlib stem of the final component. -/
def FsPath.stem (p : FsPath) : String :=
  pyStem p.name

/-- pathlib suffix of the final component. -/
def FsPath.suffix (p : FsPath) : String :=
  pySuffix p.name

namespace ImageFile

/-- The i-th destination candidate tried by ImageFile.move: the desired path
itself for i = 0, and otherwise the same directory and extension with a
numeric suffix spliced in after the stem. -/
def moveCandidate (outputPath : FsPath) (i : Nat) : FsPath :=
  if i = 0 then outputPath
  else outputPath.parent.joinpath
    (outputPath.stem ++ "-" ++ toString i ++ outputPath.suffix)

/-- The collision loop of ImageFile.move: starting from candidate index i,
return the first candidate not reported as existing.  The loop in the source
runs until it finds a free name; fuel bounds the number of iterations so the
model stays total. -/
def findFreePath (occupied : FsPath → Bool) (outputPath : FsPath) :
    Nat → Nat → Option FsPath
  | 0, _ => none
  | fuel + 1, i =>
    if occupied (moveCandidate outputPath i) then
      findFreePath occupied outputPath fuel (i + 1)
    else
      some (moveCandidate outputPath i)

/-- The destination actually used by ImageFile.move for a desired output path,
given which paths exist. -/
def moveTarget (occupied : FsPath → Bool) (outputPath : FsPath) (fuel : Nat) :
    Option FsPath :=
  findFreePath occupied outputPath fuel 0

end ImageFile

/-- An EXIF timestamp, kept abstract: the sorter only ever formats it. -/
abbrev DateTime := String

/-- The sorter's configuration fields, immutable during a run.  strftime is
the external date formatting primitive, applied to a format string and a
timestamp. -/
structure SorterConfig where
  outputDir : FsPath
  groupFormat : String
  renameFormat : Option String
  sortUnknown : Bool
  recursive : Bool
  strftime : String → DateTime → String

/-- The errors the sorter reports on its event queue. -/
inductive SortError where
  | moveError (path : FsPath)
  | listDirError (dir : FsPath)
deriving DecidableEq, Repr

/-- The tag and payload of an entry on the sorter's output queue. -/
inductive EventKind where
  | move (src : FsPath) (dst : FsPath)
  | skip (path : FsPath)
  | error (e : SortError)
  | finish
deriving DecidableEq, Repr

/-- A queue entry: its tag and payload plus the progress value appended by
trigger_event at emission time. -/
structure SortEvent where
  kind : EventKind
  progressValue : ℚ
deriving DecidableEq, Repr

/-- One entry of the sorter's dirs list: a directory, its counted files and
its progress counter. -/
structure DirPlan where
  dir : FsPath
  files : Nat
  progress : Nat
deriving DecidableEq, Repr

/-- get_progress: total progress over total files, 1 when there are no
files. -/
def getProgress (dirs : List DirPlan) : ℚ :=
  let files := (dirs.map DirPlan.files).sum
  let prog := (dirs.map DirPlan.progress).sum
  if files = 0 then 1 else (prog : ℚ) / (files : ℚ)

/-- Increment the progress counter of the first plan in the list matching the
given directory. -/
def incFirstMatch (d : FsPath) : List DirPlan → List DirPlan
  | [] => []
  | p :: rest =>
    if p.dir = d then { p with progress := p.progress + 1 } :: rest
    else p :: incFirstMatch d rest

/-- get_dir_data builds a python dict keyed by directory, so with duplicate
directories the last plan wins; incrementing that plan's progress is
incrementing the first match of the reversed list. -/
def incrementDirProgress (dirs : List DirPlan) (d : FsPath) : List DirPlan :=
  (incFirstMatch d dirs.reverse).reverse

/-- Set the progress counter of the first matching plan to its file count. -/
def setFullFirstMatch (d : FsPath) : List DirPlan → List DirPlan
  | [] => []
  | p :: rest =>
    if p.dir = d then { p with progress := p.files } :: rest
    else p :: setFullFirstMatch d rest

/-- The progress = files assignment of the sorting task's directory-error
handler, on the last matching plan. -/
def setDirProgressFull (dirs : List DirPlan) (d : FsPath) : List DirPlan :=
  (setFullFirstMatch d dirs.reverse).reverse

/-- The sorter's mutable state: the dirs list, the output queue, the source
files still in place, and the cancellation flag. -/
structure SorterState where
  dirs : List DirPlan
  queue : List SortEvent
  srcFiles : List FsPath
  cancelled : Bool

/-- trigger_event: optionally increment the progress of the event's input
directory, then append the event, stamped with the progress value computed
from the dirs list after that increment. -/
def triggerEvent (st : SorterState) (kind : EventKind) (inputDir : Option FsPath) :
    SorterState :=
  let dirs :=
    match inputDir with
    | some d => incrementDirProgress st.dirs d
    | none => st.dirs
  { st with dirs := dirs, queue := st.queue ++ [⟨kind, getProgress dirs⟩] }

/-- What the per-file external collaborators do for one file: its name, the
classifier's verdict (an open failure, or an optional timestamp) and the
relocator's verdict (a move failure, or the actual destination). -/
structure FileInfo where
  name : String
  classify : Except Unit (Option DateTime)
  moveResult : Except Unit FsPath
deriving Repr

/-- A node of the input tree: a plain file, or a directory with a name, flags
telling whether listing it fails during preparation or during sorting, and
its entries. -/
inductive FsNode where
  | file (info : FileInfo)
  | dir (name : String) (prepFails : Bool) (sortFails : Bool) (entries : List FsNode)
deriving Repr

/-- The name of a tree entry. -/
def entryName : FsNode → String
  | .file f => f.name
  | .dir n _ _ _ => n

mutual

/-- Well-formedness of a node as a filesystem: entry names are distinct at
every level. -/
def wfNode : FsNode → Bool
  | .file _ => true
  | .dir _ _ _ es => decide ((es.map entryName).Nodup) && wfList es

/-- Well-formedness of every node of a list. -/
def wfList : List FsNode → Bool
  | [] => true
  | e :: rest => wfNode e && wfList rest

end

/-- The number of direct file children in an entry list. -/
def fileCount : List FsNode → Nat
  | [] => 0
  | .file _ :: rest => fileCount rest + 1
  | .dir _ _ _ _ :: rest => fileCount rest

mutual

/-- All file paths in the subtree of a node placed at the given directory. -/
def nodeFiles (path : FsPath) : FsNode → List FsPath
  | .file f => [path.joinpath f.name]
  | .dir n _ _ es => entriesFiles (path.joinpath n) es

/-- All file paths under a directory with the given entries. -/
def entriesFiles (path : FsPath) : List FsNode → List FsPath
  | [] => []
  | e :: rest => nodeFiles path e ++ entriesFiles path rest

end

/-- The date the sorter works with after asking the classifier: an open
failure is caught and treated as no timestamp. -/
def classifiedDateTime (r : Except Unit (Option DateTime)) : Option DateTime :=
  match r with
  | .error _ => none
  | .ok d => d

/-- The routing decision of the move method: skip the file, or attempt a
relocation to a destination path. -/
inductive MoveRoute where
  | skip
  | attempt (dest : FsPath)
deriving DecidableEq, Repr

/-- The destination computation of the move method: group directory and
renamed filename when a timestamp is available, the output root and the
original name when sorting unknowns, a skip otherwise. -/
def sorterRoute (cfg : SorterConfig) (path : FsPath)
    (r : Except Unit (Option DateTime)) : MoveRoute :=
  let filename := path.name
  match classifiedDateTime r with
  | some dt =>
    let outputPath := cfg.outputDir.joinpath (cfg.strftime cfg.groupFormat dt)
    let filename :=
      match cfg.renameFormat with
      | some rf => cfg.strftime rf dt ++ path.suffix
      | none => filename
    MoveRoute.attempt (outputPath.joinpath filename)
  | none =>
    if cfg.sortUnknown then MoveRoute.attempt (cfg.outputDir.joinpath filename)
    else MoveRoute.skip

/-- Processing of a single file by the sorting task: run the move method and
catch a move failure.  A skip emits a skip event keyed by the file's parent;
a successful relocation removes the source file and emits a move event keyed
by the file's parent; a move failure emits an error event keyed by the task's
directory.  Each of the three outcomes bumps that directory's progress via
trigger_event. -/
def sorterMoveStep (cfg : SorterConfig) (dirPath : FsPath) (st : SorterState)
    (f : FileInfo) : SorterState :=
  let path := dirPath.joinpath f.name
  match sorterRoute cfg path f.classify with
  | .skip => triggerEvent st (.skip path) (some path.parent)
  | .attempt _ =>
    match f.moveResult with
    | .ok newPath =>
      triggerEvent { st with srcFiles := st.srcFiles.erase path }
        (.move path newPath) (some path.parent)
    | .error _ => triggerEvent st (.error (.moveError path)) (some dirPath)

/-- The file loop of the sorting task: before each entry the cancellation
flag is checked, directory entries are skipped, file entries are processed. -/
def sortingTaskLoop (cfg : SorterConfig) (dirPath : FsPath) :
    List FsNode → SorterState → SorterState
  | [], st => st
  | e :: rest, st =>
    if st.cancelled then st
    else
      match e with
      | .dir _ _ _ _ => sortingTaskLoop cfg dirPath rest st
      | .file f => sortingTaskLoop cfg dirPath rest (sorterMoveStep cfg dirPath st f)

/-- One prepared directory: the plan recorded in the dirs list together with
the data its sorting task will see. -/
structure PreparedDir where
  plan : DirPlan
  sortFails : Bool
  entries : List FsNode

/-- The sorting task for one prepared directory: if listing the directory
fails, force its progress to its file count and emit one error event;
otherwise run the file loop.  Either way one finish marker is emitted at the
end. -/
def sortingTask (cfg : SorterConfig) (t : PreparedDir) (st : SorterState) :
    SorterState :=
  let st1 :=
    if t.sortFails then
      triggerEvent { st with dirs := setDirProgressFull st.dirs t.plan.dir }
        (.error (.listDirError t.plan.dir)) none
    else sortingTaskLoop cfg t.plan.dir t.entries st
  triggerEvent st1 .finish none

/-- The accumulator of the preparation pass: the plans collected so far and
the events triggered so far. -/
structure PrepAcc where
  plans : List PreparedDir
  events : List SortEvent

/-- The progress value trigger_event stamps on an event raised during
preparation. -/
def prepProgress (acc : PrepAcc) : ℚ :=
  getProgress (acc.plans.map PreparedDir.plan)

mutual

/-- The preparation pass descending into one subdirectory entry: if listing
it fails, emit one error event and append no plan; otherwise iterate its
entries and append its plan.  File entries are handled by the entry loop and
are untouched here. -/
def prepareSub (recursive cancelled : Bool) (path : FsPath) :
    FsNode → PrepAcc → PrepAcc
  | .file _, acc => acc
  | .dir n pf sf sub, acc =>
    if pf then
      { acc with
        events := acc.events ++
          [⟨.error (.listDirError (path.joinpath n)), prepProgress acc⟩] }
    else
      let r := prepareList recursive cancelled (path.joinpath n) sub acc 0
      { r.1 with plans := r.1.plans ++ [⟨⟨path.joinpath n, r.2, 0⟩, sf, sub⟩] }

/-- The entry loop of the preparation pass: before each entry the
cancellation flag is checked; files are counted, subdirectories are recursed
into in recursive mode and skipped otherwise. -/
def prepareList (recursive cancelled : Bool) (path : FsPath) :
    List FsNode → PrepAcc → Nat → PrepAcc × Nat
  | [], acc, files => (acc, files)
  | e :: rest, acc, files =>
    if cancelled then (acc, files)
    else
      match e with
      | .file _ => prepareList recursive cancelled path rest acc (files + 1)
      | .dir _ _ _ _ =>
        if recursive then
          prepareList recursive cancelled path rest
            (prepareSub recursive cancelled path e acc) files
        else prepareList recursive cancelled path rest acc files

end

/-- The preparation pass on one directory with a known path and flags: if
listing it fails, emit one error event and append no plan; otherwise run the
entry loop and append this directory's plan with the counted files. -/
def prepareDir (recursive cancelled : Bool) (path : FsPath)
    (prepFails sortFails : Bool) (entries : List FsNode) (acc : PrepAcc) :
    PrepAcc :=
  if prepFails then
    { acc with
      events := acc.events ++ [⟨.error (.listDirError path), prepProgress acc⟩] }
  else
    let r := prepareList recursive cancelled path entries acc 0
    { r.1 with plans := r.1.plans ++ [⟨⟨path, r.2, 0⟩, sortFails, entries⟩] }


/-- The input root of a run: its path, its listing-failure flags and its
entries. -/
structure RootDir where
  path : FsPath
  prepFails : Bool
  sortFails : Bool
  entries : List FsNode

/-- A callback invocation observed by the front end. -/
inductive CallbackCall where
  | onMove (src dst : FsPath) (progressValue : ℚ)
  | onSkip (path : FsPath) (progressValue : ℚ)
  | onError (e : SortError) (progressValue : ℚ)
deriving DecidableEq, Repr

/-- Dispatch of one queue entry by the event loop: move, skip and error
events invoke the matching callback, a finish marker invokes none. -/
def dispatchEvent (ev : SortEvent) : Option CallbackCall :=
  match ev.kind with
  | .move s d => some (.onMove s d ev.progressValue)
  | .skip p => some (.onSkip p ev.progressValue)
  | .error e => some (.onError e ev.progressValue)
  | .finish => none

/-- The plan collection produced by the preparation pass for a run, in the
reversed order in which tasks are scheduled. -/
def preparedOf (cfg : SorterConfig) (cancelled : Bool) (root : RootDir) :
    List PreparedDir :=
  (prepareDir cfg.recursive cancelled root.path root.prepFails root.sortFails
    root.entries ⟨[], []⟩).plans.reverse

/-- The events already on the queue when the sorting tasks start: those
raised during preparation. -/
def prepEventsOf (cfg : SorterConfig) (cancelled : Bool) (root : RootDir) :
    List SortEvent :=
  (prepareDir cfg.recursive cancelled root.path root.prepFails root.sortFails
    root.entries ⟨[], []⟩).events

/-- The sorter state right after preparation: the reversed plan collection,
the preparation events, every source file still in place, and the
cancellation flag as it was when the run started. -/
def initState (cfg : SorterConfig) (cancelled : Bool) (root : RootDir) :
    SorterState :=
  ⟨(preparedOf cfg cancelled root).map PreparedDir.plan,
    prepEventsOf cfg cancelled root,
    entriesFiles root.path root.entries,
    cancelled⟩

/-- The observable outcome of one sort run. -/
structure RunResult where
  dirs : List DirPlan
  queue : List SortEvent
  callbacks : List CallbackCall
  finishCalls : Nat
  cancelled : Bool
  srcFiles : List FsPath

/-- A whole sort run: prepare, run one sorting task per plan, then drain the
queue through the event loop, dispatching callbacks, and invoke the finish
callback once. -/
def sortRun (cfg : SorterConfig) (cancelled : Bool) (root : RootDir) :
    RunResult :=
  let stF :=
    (preparedOf cfg cancelled root).foldl (fun st t => sortingTask cfg t st)
      (initState cfg cancelled root)
  ⟨stF.dirs, stF.queue, stF.queue.filterMap dispatchEvent, 1, stF.cancelled,
    stF.srcFiles⟩

/-- One atomic state transformation of the sorting phase: processing one
file, the directory-error handler of one task, or one finish marker. -/
inductive RunOp where
  | fileOp (dirPath : FsPath) (f : FileInfo)
  | taskFailOp (dirPath : FsPath)
  | finishOp

/-- The effect of one atomic sorting-phase transformation on the state. -/
def applyOp (cfg : SorterConfig) (st : SorterState) : RunOp → SorterState
  | .fileOp d f => sorterMoveStep cfg d st f
  | .taskFailOp d =>
    triggerEvent { st with dirs := setDirProgressFull st.dirs d }
      (.error (.listDirError d)) none
  | .finishOp => triggerEvent st .finish none

/-- The per-file transformations of a task over its entry list: one for each
direct file child, in order. -/
def entriesFileOps (d : FsPath) : List FsNode → List RunOp
  | [] => []
  | .file f :: rest => RunOp.fileOp d f :: entriesFileOps d rest
  | .dir _ _ _ _ :: rest => entriesFileOps d rest

/-- The transformations performed by one sorting task: its directory-error
handler if listing fails, nothing if cancelled, its per-file steps otherwise,
always followed by the finish marker. -/
def taskOps (cancelled : Bool) (t : PreparedDir) : List RunOp :=
  (if t.sortFails then [RunOp.taskFailOp t.plan.dir]
   else if cancelled then []
   else entriesFileOps t.plan.dir t.entries) ++ [RunOp.finishOp]

/-- All transformations of the sorting phase of a run, task by task. -/
def runOps (cfg : SorterConfig) (cancelled : Bool) (root : RootDir) :
    List RunOp :=
  ((preparedOf cfg cancelled root).map (taskOps cancelled)).flatten

/-- The successive sorter states of the sorting phase of a run, starting at
the state right after preparation: one state per atomic transformation. -/
def runTrace (cfg : SorterConfig) (cancelled : Bool) (root : RootDir) :
    List SorterState :=
  List.scanl (applyOp cfg) (initState cfg cancelled root)
    (runOps cfg cancelled root)

/-- Between two dirs lists: positionwise, the directory and file count are
unchanged and the progress counter does not decrease. -/
def DirsMono (d1 d2 : List DirPlan) : Prop :=
  List.Forall₂
    (fun p q => q.dir = p.dir ∧ q.files = p.files ∧ p.progress ≤ q.progress)
    d1 d2

/-- Every plan's progress is within its file count. -/
def DirsBounded (d : List DirPlan) : Prop :=
  ∀ p ∈ d, p.progress ≤ p.files

/-- The state of the event loop together with its producers: the buffered
events each still-running task will yet emit, the shared queue, the events
dispatched so far, and whether and how often the loop has declared the run
finished. -/
structure LoopState where
  tasks : List (List SortEvent)
  queue : List SortEvent
  dispatched : List SortEvent
  finished : Bool
  finishCalls : Nat

/-- The event loop's starting state for a given set of scheduled tasks. -/
def initLoopState (tasks : List (List SortEvent)) : LoopState :=
  ⟨tasks, [], [], false, 0⟩

/-- One step of the concurrent event loop system: a task emits its next
event onto the queue, the loop consumes and dispatches the front event, or
the loop observes that every task is done and the queue is drained and
declares the run finished, invoking the finish callback. -/
inductive LoopStep : LoopState → LoopState → Prop where
  | produce (s : LoopState) (i : Nat) (e : SortEvent) (rest : List SortEvent)
      (h : s.tasks.get? i = some (e :: rest)) (hf : s.finished = false) :
      LoopStep s { s with tasks := s.tasks.set i rest, queue := s.queue ++ [e] }
  | consume (s : LoopState) (e : SortEvent) (rest : List SortEvent)
      (h : s.queue = e :: rest) (hf : s.finished = false) :
      LoopStep s { s with queue := rest, dispatched := s.dispatched ++ [e] }
  | finish (s : LoopState) (ht : ∀ t ∈ s.tasks, t = []) (hq : s.queue = [])
      (hf : s.finished = false) :
      LoopStep s { s with finished := true, finishCalls := s.finishCalls + 1 }

/-- The number of buffered events still inside the tasks. -/
def tasksRemaining (s : LoopState) : Nat :=
  (s.tasks.map List.length).sum

/-- A termination measure for the event loop system. -/
def loopMeasure (s : LoopState) : Nat :=
  2 * tasksRemaining s + s.queue.length

/-- Well-formedness of an input root as a filesystem: entry names are
distinct at the top level and in every subdirectory. -/
def wfRoot (root : RootDir) : Bool :=
  decide ((root.entries.map entryName).Nodup) && wfList root.entries

/-- How many per-file transformations in a list are keyed by the given
directory, hence how many times its progress counter will still be bumped. -/
def opsKeyCount (d : FsPath) : List RunOp → Nat
  | [] => 0
  | .fileOp d2 _ :: rest => (if d2 = d then 1 else 0) + opsKeyCount d rest
  | .taskFailOp _ :: rest => opsKeyCount d rest
  | .finishOp :: rest => opsKeyCount d rest

/-- Sanity of a transformation list: once a task-failure transformation for
a directory occurs, no later per-file transformation is keyed by it. -/
def OpsSane : List RunOp → Prop
  | [] => True
  | .taskFailOp d :: rest => opsKeyCount d rest = 0 ∧ OpsSane rest
  | .fileOp _ _ :: rest => OpsSane rest
  | .finishOp :: rest => OpsSane rest

/-- The net effect of one directory's sorting task on its own plan: a
listing failure forces progress to the file count, cancellation leaves it
unchanged, and otherwise every direct file child bumps it once. -/
def taskUpdate (c : Bool) (t : PreparedDir) : DirPlan :=
  if t.sortFails then { t.plan with progress := t.plan.files }
  else { t.plan with progress := t.plan.progress + (if c then 0 else fileCount t.entries) }

/-- The inductive invariant of the sorting phase: plan directories are
distinct, the remaining transformation list is sane, and each plan's
progress plus the bumps still destined to it stays within its file count. -/
def RunInv (st : SorterState) (ops : List RunOp) : Prop :=
  (st.dirs.map DirPlan.dir).Nodup ∧
  OpsSane ops ∧
  ∀ p ∈ st.dirs, p.progress + opsKeyCount p.dir ops ≤ p.files

/-- The invariant tying the loop's finished flag to its termination
condition: before termination the finish callback has not fired, and at
termination every task is done, the queue is drained and the finish callback
has fired exactly once. -/
def LoopInv (s : LoopState) : Prop :=
  (s.finished = false ∧ s.finishCalls = 0) ∨
    (s.finished = true ∧ (∀ t ∈ s.tasks, t = []) ∧ s.queue = [] ∧
      s.finishCalls = 1)

/-- A concrete sorter configuration used to instantiate the theorems:
unknown dates are not sorted and a rename template is configured. -/
def cfgW : SorterConfig :=
  ⟨⟨["out"]⟩, "G", some "R", false, true, fun fmt dt => fmt ++ ":" ++ dt⟩

/-- A concrete sorter configuration sorting unknown dates, without a rename
template. -/
def cfgU : SorterConfig :=
  ⟨⟨["out"]⟩, "G", none, true, false, fun fmt dt => fmt ++ ":" ++ dt⟩

/-- A concrete input directory path. -/
def dirPathW : FsPath := ⟨["in"]⟩

/-- A concrete file whose classification yields a timestamp and whose
relocation succeeds. -/
def fOkW : FileInfo := ⟨"a.jpg", .ok (some "D"), .ok ⟨["out", "G:D", "a.jpg"]⟩⟩

/-- A concrete file without a usable timestamp. -/
def fNoneW : FileInfo := ⟨"b.jpg", .ok none, .ok ⟨["out", "b.jpg"]⟩⟩

/-- A concrete file whose relocation fails. -/
def fMoveErrW : FileInfo := ⟨"c.jpg", .ok (some "D"), .error ()⟩

/-- A concrete sorter state with one planned directory of three files. -/
def stW : SorterState :=
  ⟨[⟨⟨["in"]⟩, 3, 0⟩], [], [⟨["in", "a.jpg"]⟩, ⟨["in", "b.jpg"]⟩, ⟨["in", "c.jpg"]⟩], false⟩

/-- A concrete well-formed input root with two files and a subdirectory
holding one more file. -/
def rootW : RootDir :=
  ⟨⟨["in"]⟩, false, false,
    [.file fOkW, .file fNoneW, .dir "sub" false false [.file fMoveErrW]]⟩

/-- A concrete input root whose own listing fails during preparation. -/
def rootPrepFailW : RootDir := ⟨⟨["in"]⟩, true, false, [.file fOkW]⟩

/-- A concrete input root with a subdirectory whose listing fails at sorting
time. -/
def rootSortFailW : RootDir :=
  ⟨⟨["in"]⟩, false, false, [.file fOkW, .dir "bad" false true [.file fNoneW]]⟩

/-- A concrete occupancy predicate for the relocation witness: the desired
destination and its first numbered variant already exist. -/
def occW : FsPath → Bool :=
  fun q => decide (q ∈ [FsPath.mk ["home", "a.jpg"], FsPath.mk ["home", "a-1.jpg"]])

/-- The desired destination used in the relocation witness. -/
def pW : FsPath := ⟨["home", "a.jpg"]⟩

theorem FsPath.parent_joinpath (p : FsPath) (s : String) :
    (p.joinpath s).parent = p := by
  cases p
  simp [FsPath.joinpath, FsPath.parent]

theorem FsPath.name_joinpath (p : FsPath) (s : String) :
    (p.joinpath s).name = s := by
  cases p
  simp [FsPath.joinpath, FsPath.name]

theorem findFreePath_spec (occupied : FsPath → Bool) (p : FsPath) :
    ∀ (fuel i : Nat) (q : FsPath),
      ImageFile.findFreePath occupied p fuel i = some q →
      occupied q = false ∧
        ∃ k, i ≤ k ∧ q = ImageFile.moveCandidate p k ∧
          ∀ j, i ≤ j → j < k → occupied (ImageFile.moveCandidate p j) = true := by
  intro fuel
  induction fuel with
  | zero => intro i q h; simp [ImageFile.findFreePath] at h
  | succ n ih =>
    intro i q h
    rw [ImageFile.findFreePath] at h
    by_cases hocc : occupied (ImageFile.moveCandidate p i) = true
    · rw [if_pos hocc] at h
      obtain ⟨hq, k, hk1, hk2, hk3⟩ := ih (i + 1) q h
      refine ⟨hq, k, by omega, hk2, ?_⟩
      intro j hij hjk
      rcases Nat.eq_or_lt_of_le hij with hji | hji
      · rwa [← hji]
      · exact hk3 j hji hjk
    · rw [if_neg hocc] at h
      simp only [Option.some.injEq] at h
      refine ⟨?_, i, le_refl i, h.symm, ?_⟩
      · rw [← h]; exact Bool.eq_false_iff.mpr hocc
      · intro j hij hji; omega

/-- C8: whenever the relocation primitive settles on a destination, that
destination does not collide with a pre-existing file, and it is the first
free candidate in the sequence name, name-1, name-2, and so on. -/
theorem exifSort_C8 (occupied : FsPath → Bool) (p : FsPath) (fuel : Nat)
    (q : FsPath) (h : ImageFile.moveTarget occupied p fuel = some q) :
    occupied q = false ∧
      ∃ k, q = ImageFile.moveCandidate p k ∧
        ∀ j, j < k → occupied (ImageFile.moveCandidate p j) = true := by
  obtain ⟨hq, k, _, hk2, hk3⟩ := findFreePath_spec occupied p fuel 0 q h
  exact ⟨hq, k, hk2, fun j hj => hk3 j (Nat.zero_le j) hj⟩

theorem exifSort_C8_witness :
    ImageFile.moveTarget occW pW 3 = some ⟨["home", "a-2.jpg"]⟩ ∧
      (occW ⟨["home", "a-2.jpg"]⟩ = false ∧
        ∃ k, (⟨["home", "a-2.jpg"]⟩ : FsPath) = ImageFile.moveCandidate pW k ∧
          ∀ j, j < k → occW (ImageFile.moveCandidate pW j) = true) :=
  ⟨by decide, exifSort_C8 occW pW 3 _ (by decide)⟩

/-- C9: a file whose classification fails with an open failure is routed
exactly as a file with no timestamp, both in the destination decision and in
the full per-file processing step. -/
theorem exifSort_C9 (cfg : SorterConfig) (path : FsPath) (e : Unit)
    (st : SorterState) (dirPath : FsPath) (name : String)
    (mr : Except Unit FsPath) :
    sorterRoute cfg path (.error e) = sorterRoute cfg path (.ok none) ∧
      sorterMoveStep cfg dirPath st ⟨name, .error e, mr⟩ =
        sorterMoveStep cfg dirPath st ⟨name, .ok none, mr⟩ :=
  ⟨rfl, rfl⟩

/-- C2: the aggregate progress is the summed progress over the summed file
count, is exactly 1 on an empty total, and under the per-plan invariant it
lies between 0 and 1. -/
theorem exifSort_C2 (dirs : List DirPlan)
    (hinv : ∀ p ∈ dirs, p.progress ≤ p.files) :
    ((dirs.map DirPlan.files).sum = 0 → getProgress dirs = 1) ∧
      ((dirs.map DirPlan.files).sum ≠ 0 →
        getProgress dirs =
          ((dirs.map DirPlan.progress).sum : ℚ) /
            ((dirs.map DirPlan.files).sum : ℚ)) ∧
      0 ≤ getProgress dirs ∧ getProgress dirs ≤ 1 := by
  unfold getProgress
  by_cases h0 : (dirs.map DirPlan.files).sum = 0
  · rw [if_pos h0]
    exact ⟨fun _ => rfl, fun hne => absurd h0 hne, zero_le_one, le_refl 1⟩
  · rw [if_neg h0]
    have hpos : 0 < ((dirs.map DirPlan.files).sum : ℚ) := by
      exact_mod_cast Nat.pos_of_ne_zero h0
    have hle : (dirs.map DirPlan.progress).sum ≤ (dirs.map DirPlan.files).sum :=
      List.sum_le_sum hinv
    refine ⟨fun h => absurd h h0, fun _ => rfl, ?_, ?_⟩
    · apply div_nonneg _ (le_of_lt hpos)
      exact_mod_cast Nat.zero_le _
    · rw [div_le_one hpos]
      exact_mod_cast hle

theorem exifSort_C2_witness :
    (∀ p ∈ [(⟨⟨["in"]⟩, 2, 1⟩ : DirPlan)], p.progress ≤ p.files) ∧
      (([(⟨⟨["in"]⟩, 2, 1⟩ : DirPlan)].map DirPlan.files).sum = 0 →
          getProgress [⟨⟨["in"]⟩, 2, 1⟩] = 1) ∧
        (([(⟨⟨["in"]⟩, 2, 1⟩ : DirPlan)].map DirPlan.files).sum ≠ 0 →
          getProgress [⟨⟨["in"]⟩, 2, 1⟩] =
            (([(⟨⟨["in"]⟩, 2, 1⟩ : DirPlan)].map DirPlan.progress).sum : ℚ) /
              (([(⟨⟨["in"]⟩, 2, 1⟩ : DirPlan)].map DirPlan.files).sum : ℚ)) ∧
        0 ≤ getProgress [⟨⟨["in"]⟩, 2, 1⟩] ∧ getProgress [⟨⟨["in"]⟩, 2, 1⟩] ≤ 1 :=
  ⟨by decide, exifSort_C2 _ (by decide)⟩

theorem incFirstMatch_of_forall_ne (d : FsPath) (l : List DirPlan)
    (h : ∀ p ∈ l, p.dir ≠ d) : incFirstMatch d l = l := by
  induction l with
  | nil => rfl
  | cons p rest ih =>
    rw [incFirstMatch, if_neg (h p (List.mem_cons_self p rest))]
    rw [ih (fun q hq => h q (List.mem_cons_of_mem p hq))]

theorem map_bump_of_forall_ne (d : FsPath) (l : List DirPlan)
    (h : ∀ p ∈ l, p.dir ≠ d) :
    l.map (fun p => if p.dir = d then { p with progress := p.progress + 1 } else p)
      = l := by
  induction l with
  | nil => rfl
  | cons p rest ih =>
    simp only [List.map_cons, if_neg (h p (List.mem_cons_self p rest))]
    rw [ih (fun q hq => h q (List.mem_cons_of_mem p hq))]

theorem map_setFull_of_forall_ne (d : FsPath) (l : List DirPlan)
    (h : ∀ p ∈ l, p.dir ≠ d) :
    l.map (fun p => if p.dir = d then { p with progress := p.files } else p)
      = l := by
  induction l with
  | nil => rfl
  | cons p rest ih =>
    simp only [List.map_cons, if_neg (h p (List.mem_cons_self p rest))]
    rw [ih (fun q hq => h q (List.mem_cons_of_mem p hq))]

theorem incFirstMatch_eq_map (d : FsPath) (l : List DirPlan)
    (hnd : (l.map DirPlan.dir).Nodup) :
    incFirstMatch d l =
      l.map (fun p => if p.dir = d then { p with progress := p.progress + 1 } else p) := by
  induction l with
  | nil => rfl
  | cons p rest ih =>
    simp only [List.map_cons, List.nodup_cons, List.mem_map] at hnd
    by_cases hp : p.dir = d
    · rw [incFirstMatch, if_pos hp]
      simp only [List.map_cons, if_pos hp]
      rw [map_bump_of_forall_ne d rest]
      intro q hq hqd
      exact hnd.1 ⟨q, hq, by rw [hqd, hp]⟩
    · rw [incFirstMatch, if_neg hp]
      simp only [List.map_cons, if_neg hp]
      rw [ih hnd.2]

theorem setFullFirstMatch_eq_map (d : FsPath) (l : List DirPlan)
    (hnd : (l.map DirPlan.dir).Nodup) :
    setFullFirstMatch d l =
      l.map (fun p => if p.dir = d then { p with progress := p.files } else p) := by
  induction l with
  | nil => rfl
  | cons p rest ih =>
    simp only [List.map_cons, List.nodup_cons, List.mem_map] at hnd
    by_cases hp : p.dir = d
    · rw [setFullFirstMatch, if_pos hp]
      simp only [List.map_cons, if_pos hp]
      rw [map_setFull_of_forall_ne d rest]
      intro q hq hqd
      exact hnd.1 ⟨q, hq, by rw [hqd, hp]⟩
    · rw [setFullFirstMatch, if_neg hp]
      simp only [List.map_cons, if_neg hp]
      rw [ih hnd.2]

theorem incrementDirProgress_eq_map (l : List DirPlan) (d : FsPath)
    (hnd : (l.map DirPlan.dir).Nodup) :
    incrementDirProgress l d =
      l.map (fun p => if p.dir = d then { p with progress := p.progress + 1 } else p) := by
  unfold incrementDirProgress
  rw [incFirstMatch_eq_map d l.reverse
    (by simp only [List.map_reverse, List.nodup_reverse]; exact hnd)]
  rw [← List.map_reverse, List.reverse_reverse]

theorem setDirProgressFull_eq_map (l : List DirPlan) (d : FsPath)
    (hnd : (l.map DirPlan.dir).Nodup) :
    setDirProgressFull l d =
      l.map (fun p => if p.dir = d then { p with progress := p.files } else p) := by
  unfold setDirProgressFull
  rw [setFullFirstMatch_eq_map d l.reverse
    (by simp only [List.map_reverse, List.nodup_reverse]; exact hnd)]
  rw [← List.map_reverse, List.reverse_reverse]

theorem sorterRoute_some (cfg : SorterConfig) (path : FsPath)
    (r : Except Unit (Option DateTime)) (dt : DateTime)
    (hc : classifiedDateTime r = some dt) :
    sorterRoute cfg path r =
      .attempt ((cfg.outputDir.joinpath (cfg.strftime cfg.groupFormat dt)).joinpath
        (match cfg.renameFormat with
          | some rf => cfg.strftime rf dt ++ path.suffix
          | none => path.name)) := by
  unfold sorterRoute
  rw [hc]

theorem sorterRoute_none (cfg : SorterConfig) (path : FsPath)
    (r : Except Unit (Option DateTime)) (hc : classifiedDateTime r = none) :
    sorterRoute cfg path r =
      if cfg.sortUnknown then .attempt (cfg.outputDir.joinpath path.name)
      else .skip := by
  unfold sorterRoute
  rw [hc]

/-- C1: with a timestamp, the destination directory is the output root joined
with the group-formatted timestamp and the filename is the original one, or
the rename-formatted timestamp plus the original extension when a rename
template is set; without a timestamp and with sort-unknown disabled, the step
only emits a skip event and bumps the directory's progress, attempting no
move; without a timestamp and with sort-unknown enabled, the destination is
the output root with the original filename. -/
theorem exifSort_C1 (cfg : SorterConfig) (st : SorterState) (dirPath : FsPath)
    (f : FileInfo) (hnd : (st.dirs.map DirPlan.dir).Nodup) :
    (∀ dt, classifiedDateTime f.classify = some dt →
      ∃ dest, sorterRoute cfg (dirPath.joinpath f.name) f.classify = .attempt dest ∧
        dest.parent = cfg.outputDir.joinpath (cfg.strftime cfg.groupFormat dt) ∧
        dest.name = (match cfg.renameFormat with
          | some rf => cfg.strftime rf dt ++ (dirPath.joinpath f.name).suffix
          | none => (dirPath.joinpath f.name).name)) ∧
    (classifiedDateTime f.classify = none → cfg.sortUnknown = false →
      (sorterMoveStep cfg dirPath st f).dirs =
        st.dirs.map (fun p =>
          if p.dir = dirPath then { p with progress := p.progress + 1 } else p) ∧
      (sorterMoveStep cfg dirPath st f).queue =
        st.queue ++ [⟨.skip (dirPath.joinpath f.name),
          getProgress (sorterMoveStep cfg dirPath st f).dirs⟩] ∧
      (sorterMoveStep cfg dirPath st f).srcFiles = st.srcFiles) ∧
    (classifiedDateTime f.classify = none → cfg.sortUnknown = true →
      ∃ dest, sorterRoute cfg (dirPath.joinpath f.name) f.classify = .attempt dest ∧
        dest.parent = cfg.outputDir ∧
        dest.name = (dirPath.joinpath f.name).name) := by
  refine ⟨?_, ?_, ?_⟩
  · intro dt hdt
    refine ⟨_, sorterRoute_some cfg _ f.classify dt hdt, ?_, ?_⟩
    · exact FsPath.parent_joinpath _ _
    · exact FsPath.name_joinpath _ _
  · intro hdt hu
    have hroute : sorterRoute cfg (dirPath.joinpath f.name) f.classify = .skip := by
      rw [sorterRoute_none cfg _ f.classify hdt, hu, if_neg (by simp)]
    simp only [sorterMoveStep]
    rw [hroute]
    simp only [triggerEvent, FsPath.parent_joinpath,
      incrementDirProgress_eq_map st.dirs dirPath hnd]
    exact ⟨trivial, trivial, trivial⟩
  · intro hdt hu
    refine ⟨_, ?_, FsPath.parent_joinpath _ _, FsPath.name_joinpath _ _⟩
    rw [sorterRoute_none cfg _ f.classify hdt, hu, if_pos rfl]

theorem exifSort_C1_witness :
    (∃ dest, sorterRoute cfgW (dirPathW.joinpath fOkW.name) fOkW.classify = .attempt dest ∧
        dest.parent = cfgW.outputDir.joinpath (cfgW.strftime cfgW.groupFormat "D") ∧
        dest.name = (match cfgW.renameFormat with
          | some rf => cfgW.strftime rf "D" ++ (dirPathW.joinpath fOkW.name).suffix
          | none => (dirPathW.joinpath fOkW.name).name)) ∧
    ((sorterMoveStep cfgW dirPathW stW fNoneW).dirs =
        stW.dirs.map (fun p =>
          if p.dir = dirPathW then { p with progress := p.progress + 1 } else p) ∧
      (sorterMoveStep cfgW dirPathW stW fNoneW).queue =
        stW.queue ++ [⟨.skip (dirPathW.joinpath fNoneW.name),
          getProgress (sorterMoveStep cfgW dirPathW stW fNoneW).dirs⟩] ∧
      (sorterMoveStep cfgW dirPathW stW fNoneW).srcFiles = stW.srcFiles) ∧
    (∃ dest, sorterRoute cfgU (dirPathW.joinpath fNoneW.name) fNoneW.classify = .attempt dest ∧
        dest.parent = cfgU.outputDir ∧
        dest.name = (dirPathW.joinpath fNoneW.name).name) :=
  ⟨(exifSort_C1 cfgW stW dirPathW fOkW (by decide)).1 "D" (by decide),
   (exifSort_C1 cfgW stW dirPathW fNoneW (by decide)).2.1 (by decide) (by decide),
   (exifSort_C1 cfgU stW dirPathW fNoneW (by decide)).2.2 (by decide) (by decide)⟩

/-- C5: once a relocation is attempted for a file, a success appends a move
event with the source and the actual destination and removes the source
file, a failure appends an error event and leaves the source files
untouched; both outcomes bump the owning directory's progress, and the task
loop always proceeds to the remaining entries after the step. -/
theorem exifSort_C5 (cfg : SorterConfig) (st : SorterState) (dirPath : FsPath)
    (f : FileInfo) (rest : List FsNode)
    (hnd : (st.dirs.map DirPlan.dir).Nodup)
    (hroute : ∃ dest,
      sorterRoute cfg (dirPath.joinpath f.name) f.classify = .attempt dest) :
    (∀ newPath, f.moveResult = .ok newPath →
      (sorterMoveStep cfg dirPath st f).queue =
        st.queue ++ [⟨.move (dirPath.joinpath f.name) newPath,
          getProgress (sorterMoveStep cfg dirPath st f).dirs⟩] ∧
      (sorterMoveStep cfg dirPath st f).dirs =
        st.dirs.map (fun p =>
          if p.dir = dirPath then { p with progress := p.progress + 1 } else p) ∧
      (sorterMoveStep cfg dirPath st f).srcFiles =
        st.srcFiles.erase (dirPath.joinpath f.name)) ∧
    (∀ e, f.moveResult = .error e →
      (sorterMoveStep cfg dirPath st f).queue =
        st.queue ++ [⟨.error (.moveError (dirPath.joinpath f.name)),
          getProgress (sorterMoveStep cfg dirPath st f).dirs⟩] ∧
      (sorterMoveStep cfg dirPath st f).dirs =
        st.dirs.map (fun p =>
          if p.dir = dirPath then { p with progress := p.progress + 1 } else p) ∧
      (sorterMoveStep cfg dirPath st f).srcFiles = st.srcFiles) ∧
    (st.cancelled = false →
      sortingTaskLoop cfg dirPath (.file f :: rest) st =
        sortingTaskLoop cfg dirPath rest (sorterMoveStep cfg dirPath st f)) := by
  obtain ⟨dest, hdest⟩ := hroute
  refine ⟨?_, ?_, ?_⟩
  · intro newPath hok
    simp only [sorterMoveStep]
    rw [hdest, hok]
    simp only [triggerEvent, FsPath.parent_joinpath,
      incrementDirProgress_eq_map st.dirs dirPath hnd]
    exact ⟨trivial, trivial, trivial⟩
  · intro e herr
    simp only [sorterMoveStep]
    rw [hdest, herr]
    simp only [triggerEvent, FsPath.parent_joinpath,
      incrementDirProgress_eq_map st.dirs dirPath hnd]
    exact ⟨trivial, trivial, trivial⟩
  · intro hc
    simp [sortingTaskLoop, hc]

theorem exifSort_C5_witness :
    ((sorterMoveStep cfgW dirPathW stW fOkW).queue =
        stW.queue ++ [⟨.move (dirPathW.joinpath fOkW.name) ⟨["out", "G:D", "a.jpg"]⟩,
          getProgress (sorterMoveStep cfgW dirPathW stW fOkW).dirs⟩] ∧
      (sorterMoveStep cfgW dirPathW stW fOkW).dirs =
        stW.dirs.map (fun p =>
          if p.dir = dirPathW then { p with progress := p.progress + 1 } else p) ∧
      (sorterMoveStep cfgW dirPathW stW fOkW).srcFiles =
        stW.srcFiles.erase (dirPathW.joinpath fOkW.name)) ∧
    ((sorterMoveStep cfgW dirPathW stW fMoveErrW).queue =
        stW.queue ++ [⟨.error (.moveError (dirPathW.joinpath fMoveErrW.name)),
          getProgress (sorterMoveStep cfgW dirPathW stW fMoveErrW).dirs⟩] ∧
      (sorterMoveStep cfgW dirPathW stW fMoveErrW).dirs =
        stW.dirs.map (fun p =>
          if p.dir = dirPathW then { p with progress := p.progress + 1 } else p) ∧
      (sorterMoveStep cfgW dirPathW stW fMoveErrW).srcFiles = stW.srcFiles) ∧
    (sortingTaskLoop cfgW dirPathW (.file fMoveErrW :: []) stW =
      sortingTaskLoop cfgW dirPathW [] (sorterMoveStep cfgW dirPathW stW fMoveErrW)) :=
  ⟨(exifSort_C5 cfgW stW dirPathW fOkW [] (by decide)
      ⟨⟨["out", "G:D", "R:D.jpg"]⟩, by decide⟩).1 _ rfl,
   (exifSort_C5 cfgW stW dirPathW fMoveErrW [] (by decide)
      ⟨⟨["out", "G:D", "R:D.jpg"]⟩, by decide⟩).2.1 () rfl,
   (exifSort_C5 cfgW stW dirPathW fMoveErrW [] (by decide)
      ⟨⟨["out", "G:D", "R:D.jpg"]⟩, by decide⟩).2.2 (by decide)⟩

/-- C3 counterexample: on a preparation read failure the pass emits one
error event but appends no plan at all, refuting the zero-file plan the
claim asserts. -/
theorem exifSort_C3_counterexample :
    (prepareDir true false ⟨["in"]⟩ true false [.file fOkW] ⟨[], []⟩).events.length = 1 ∧
      (prepareDir true false ⟨["in"]⟩ true false [.file fOkW] ⟨[], []⟩).plans = [] :=
  ⟨rfl, rfl⟩

/-- C3 (amended): when reading a directory's contents fails during
preparation, exactly one Failed event is emitted and no plan is appended for
that directory, and the rest of the preparation pass continues: a failing
subdirectory entry only adds the error event before the remaining entries
are processed. -/
theorem exifSort_C3_amended (recursive cancelled : Bool) (path : FsPath)
    (sortFails : Bool) (entries : List FsNode) (acc : PrepAcc)
    (n : String) (sf : Bool) (sub : List FsNode) (rest : List FsNode)
    (files : Nat) (hc : cancelled = false) (hr : recursive = true) :
    prepareDir recursive cancelled path true sortFails entries acc =
      { acc with events := acc.events ++
          [⟨.error (.listDirError path), prepProgress acc⟩] } ∧
    prepareList recursive cancelled path (.dir n true sf sub :: rest) acc files =
      prepareList recursive cancelled path rest
        { acc with events := acc.events ++
            [⟨.error (.listDirError (path.joinpath n)), prepProgress acc⟩] } files := by
  subst hc hr
  exact ⟨rfl, rfl⟩

theorem exifSort_C3_amended_witness :
    (prepareDir true false ⟨["in"]⟩ true false [.file fOkW] ⟨[], []⟩ =
      { plans := [], events := [⟨.error (.listDirError ⟨["in"]⟩), prepProgress ⟨[], []⟩⟩] }) ∧
    (prepareList true false ⟨["in"]⟩ [.dir "bad" true false [], .file fOkW] ⟨[], []⟩ 0 =
      prepareList true false ⟨["in"]⟩ [.file fOkW]
        { plans := [], events :=
            [⟨.error (.listDirError (FsPath.joinpath ⟨["in"]⟩ "bad")), prepProgress ⟨[], []⟩⟩] } 0) :=
  ⟨(exifSort_C3_amended true false ⟨["in"]⟩ false [.file fOkW] ⟨[], []⟩
      "bad" false [] [.file fOkW] 0 rfl rfl).1,
   (exifSort_C3_amended true false ⟨["in"]⟩ false [] ⟨[], []⟩
      "bad" false [] [.file fOkW] 0 rfl rfl).2⟩

theorem loopStep_not_finished (s s' : LoopState) (h : LoopStep s s') :
    s.finished = false := by
  cases h <;> assumption

theorem loopInv_step (s s' : LoopState) (hinv : LoopInv s) (h : LoopStep s s') :
    LoopInv s' := by
  have hf := loopStep_not_finished s s' h
  rcases hinv with ⟨_, hc⟩ | ⟨hfin, _⟩
  · cases h with
    | produce i e rest hget hf' => exact Or.inl ⟨hf, hc⟩
    | consume e rest hq hf' => exact Or.inl ⟨hf, hc⟩
    | finish ht hq hf' => exact Or.inr ⟨rfl, ht, hq, by simp [hc]⟩
  · rw [hfin] at hf; exact absurd hf (by simp)

theorem loopInv_reach (init s : LoopState) (hinit : LoopInv init)
    (h : Relation.ReflTransGen LoopStep init s) : LoopInv s := by
  induction h with
  | refl => exact hinit
  | tail hab hbc ih => exact loopInv_step _ _ ih hbc

theorem sum_lengths_set (ts : List (List SortEvent)) (i : Nat) (e : SortEvent)
    (rest : List SortEvent) (h : ts.get? i = some (e :: rest)) :
    ((ts.set i rest).map List.length).sum + 1 = (ts.map List.length).sum := by
  induction ts generalizing i with
  | nil => simp at h
  | cons t ts ih =>
    cases i with
    | zero =>
      simp only [List.get?] at h
      injection h with h
      subst h
      simp only [List.set, List.map_cons, List.sum_cons, List.length_cons]
      omega
    | succ j =>
      simp only [List.get?] at h
      have hih := ih j h
      simp only [List.set, List.map_cons, List.sum_cons]
      omega

theorem loop_terminates (s : LoopState) (hf : s.finished = false) :
    ∃ s', Relation.ReflTransGen LoopStep s s' ∧ s'.finished = true ∧
      s'.finishCalls = s.finishCalls + 1 := by
  generalize hm : loopMeasure s = m
  induction m using Nat.strong_induction_on generalizing s with
  | _ m ih =>
  subst hm
  rcases hq : s.queue with _ | ⟨e, rest⟩
  · by_cases ht : ∀ t ∈ s.tasks, t = []
    · exact ⟨_, Relation.ReflTransGen.single (LoopStep.finish s ht hq hf), rfl, rfl⟩
    · push_neg at ht
      obtain ⟨t, htmem, htne⟩ := ht
      obtain ⟨⟨i, hilt⟩, hit⟩ := List.mem_iff_get.mp htmem
      rcases htt : t with _ | ⟨te, trest⟩
      · exact absurd htt htne
      · have hget : s.tasks.get? i = some (te :: trest) := by
          rw [List.get?_eq_get hilt, hit, htt]
        have hstep := LoopStep.produce s i te trest hget hf
        set s1 : LoopState :=
          { s with tasks := s.tasks.set i trest, queue := s.queue ++ [te] } with hs1
        have hmeas : loopMeasure s1 < loopMeasure s := by
          have hsum := sum_lengths_set s.tasks i te trest hget
          simp only [loopMeasure, tasksRemaining, hs1, List.length_append,
            List.length_cons, List.length_nil]
          omega
        obtain ⟨s', hsteps, hfin', hcalls⟩ := ih (loopMeasure s1) hmeas s1 hf rfl
        refine ⟨s', Relation.ReflTransGen.head hstep hsteps, hfin', ?_⟩
        rw [hcalls]
  · have hstep := LoopStep.consume s e rest hq hf
    set s1 : LoopState :=
      { s with queue := rest, dispatched := s.dispatched ++ [e] } with hs1
    have hmeas : loopMeasure s1 < loopMeasure s := by
      simp only [loopMeasure, tasksRemaining, hs1, hq, List.length_cons]
      omega
    obtain ⟨s', hsteps, hfin', hcalls⟩ := ih (loopMeasure s1) hmeas s1 hf rfl
    exact ⟨s', Relation.ReflTransGen.head hstep hsteps, hfin', by rw [hcalls]⟩

/-- C4: from any reachable state of the event loop system, if the run is
declared finished then every scheduled task has emitted all its events, the
queue is drained, and the finish callback has fired exactly once; moreover a
terminal finished state with exactly one finish call is always reachable,
whatever events the tasks hold, including when every directory task only
reports a failure. -/
theorem exifSort_C4 (tasks : List (List SortEvent)) (s : LoopState)
    (h : Relation.ReflTransGen LoopStep (initLoopState tasks) s) :
    (s.finished = true →
      (∀ t ∈ s.tasks, t = []) ∧ s.queue = [] ∧ s.finishCalls = 1) ∧
    ∃ s', Relation.ReflTransGen LoopStep s s' ∧ s'.finished = true ∧
      s'.finishCalls = 1 := by
  have hinv := loopInv_reach (initLoopState tasks) s (Or.inl ⟨rfl, rfl⟩) h
  constructor
  · intro hfin
    rcases hinv with ⟨hf, _⟩ | ⟨_, h1, h2, h3⟩
    · rw [hfin] at hf; exact absurd hf (by simp)
    · exact ⟨h1, h2, h3⟩
  · rcases hinv with ⟨hf, hc⟩ | ⟨hfin, _, _, h3⟩
    · obtain ⟨s', hsteps, hfin', hcalls⟩ := loop_terminates s hf
      exact ⟨s', hsteps, hfin', by rw [hcalls, hc]⟩
    · exact ⟨s, Relation.ReflTransGen.refl, hfin, h3⟩

theorem exifSort_C4_witness :
    ((initLoopState [[⟨.error (.listDirError ⟨["in"]⟩), 1⟩], [⟨.error (.listDirError ⟨["sub"]⟩), 1⟩]]).finished = true →
      (∀ t ∈ (initLoopState [[⟨.error (.listDirError ⟨["in"]⟩), 1⟩], [⟨.error (.listDirError ⟨["sub"]⟩), 1⟩]]).tasks, t = []) ∧
        (initLoopState [[⟨.error (.listDirError ⟨["in"]⟩), 1⟩], [⟨.error (.listDirError ⟨["sub"]⟩), 1⟩]]).queue = [] ∧
        (initLoopState [[⟨.error (.listDirError ⟨["in"]⟩), 1⟩], [⟨.error (.listDirError ⟨["sub"]⟩), 1⟩]]).finishCalls = 1) ∧
    ∃ s', Relation.ReflTransGen LoopStep
        (initLoopState [[⟨.error (.listDirError ⟨["in"]⟩), 1⟩], [⟨.error (.listDirError ⟨["sub"]⟩), 1⟩]]) s' ∧
      s'.finished = true ∧ s'.finishCalls = 1 :=
  exifSort_C4 [[⟨.error (.listDirError ⟨["in"]⟩), 1⟩], [⟨.error (.listDirError ⟨["sub"]⟩), 1⟩]]
    (initLoopState [[⟨.error (.listDirError ⟨["in"]⟩), 1⟩], [⟨.error (.listDirError ⟨["sub"]⟩), 1⟩]])
    Relation.ReflTransGen.refl

theorem sorterMoveStep_dirs (cfg : SorterConfig) (dirPath : FsPath)
    (st : SorterState) (f : FileInfo) :
    (sorterMoveStep cfg dirPath st f).dirs = incrementDirProgress st.dirs dirPath := by
  simp only [sorterMoveStep]
  cases sorterRoute cfg (dirPath.joinpath f.name) f.classify with
  | skip => simp [triggerEvent, FsPath.parent_joinpath]
  | attempt dest =>
    cases f.moveResult with
    | ok newPath => simp [triggerEvent, FsPath.parent_joinpath]
    | error e => simp [triggerEvent]

theorem sorterMoveStep_cancelled (cfg : SorterConfig) (dirPath : FsPath)
    (st : SorterState) (f : FileInfo) :
    (sorterMoveStep cfg dirPath st f).cancelled = st.cancelled := by
  simp only [sorterMoveStep]
  cases sorterRoute cfg (dirPath.joinpath f.name) f.classify with
  | skip => rfl
  | attempt dest =>
    cases f.moveResult with
    | ok newPath => rfl
    | error e => rfl

theorem sortingTaskLoop_cancelled_true (cfg : SorterConfig) (dirPath : FsPath)
    (es : List FsNode) (st : SorterState) (h : st.cancelled = true) :
    sortingTaskLoop cfg dirPath es st = st := by
  cases es with
  | nil => rfl
  | cons e rest =>
    rw [sortingTaskLoop.eq_def]
    simp [h]

theorem prepareList_cancelled_true (r : Bool) (path : FsPath) (es : List FsNode)
    (acc : PrepAcc) (files : Nat) :
    prepareList r true path es acc files = (acc, files) := by
  cases es with
  | nil => rfl
  | cons e rest => rfl

theorem sortingTaskLoop_eq_foldl (cfg : SorterConfig) (dirPath : FsPath)
    (es : List FsNode) (st : SorterState) (h : st.cancelled = false) :
    sortingTaskLoop cfg dirPath es st =
      List.foldl (applyOp cfg) st (entriesFileOps dirPath es) := by
  induction es generalizing st with
  | nil => rfl
  | cons e rest ih =>
    cases e with
    | file f =>
      rw [sortingTaskLoop, if_neg (by rw [h]; exact Bool.false_ne_true)]
      rw [entriesFileOps, List.foldl_cons]
      exact ih _ (by rw [sorterMoveStep_cancelled, h])
    | dir n pf sf sub =>
      rw [sortingTaskLoop, if_neg (by rw [h]; exact Bool.false_ne_true)]
      rw [entriesFileOps]
      exact ih st h

theorem sortingTask_eq_foldl (cfg : SorterConfig) (t : PreparedDir)
    (st : SorterState) :
    sortingTask cfg t st = List.foldl (applyOp cfg) st (taskOps st.cancelled t) := by
  cases hsf : t.sortFails with
  | true =>
    simp only [sortingTask, taskOps, hsf, if_true, List.singleton_append,
      List.foldl_cons, List.foldl_nil]
    rfl
  | false =>
    cases hc : st.cancelled with
    | true =>
      simp only [sortingTask, taskOps, hsf, hc, if_true, if_false,
        List.nil_append, List.foldl_cons, List.foldl_nil]
      rw [sortingTaskLoop_cancelled_true cfg t.plan.dir t.entries st hc]
      rfl
    | false =>
      simp only [sortingTask, taskOps, hsf, hc, if_false, List.foldl_append,
        List.foldl_cons, List.foldl_nil]
      rw [sortingTaskLoop_eq_foldl cfg t.plan.dir t.entries st hc]
      rfl

theorem applyOp_cancelled (cfg : SorterConfig) (st : SorterState) (op : RunOp) :
    (applyOp cfg st op).cancelled = st.cancelled := by
  cases op with
  | fileOp d f => exact sorterMoveStep_cancelled cfg d st f
  | taskFailOp d => rfl
  | finishOp => rfl

theorem foldl_applyOp_cancelled (cfg : SorterConfig) (ops : List RunOp)
    (st : SorterState) :
    (List.foldl (applyOp cfg) st ops).cancelled = st.cancelled := by
  induction ops generalizing st with
  | nil => rfl
  | cons op rest ih => rw [List.foldl_cons, ih, applyOp_cancelled]

theorem foldl_tasks_eq_ops (cfg : SorterConfig) (prepared : List PreparedDir)
    (st : SorterState) :
    prepared.foldl (fun s t => sortingTask cfg t s) st =
      List.foldl (applyOp cfg) st ((prepared.map (taskOps st.cancelled)).flatten) := by
  induction prepared generalizing st with
  | nil => rfl
  | cons t ts ih =>
    simp only [List.foldl_cons, List.map_cons, List.flatten_cons, List.foldl_append]
    rw [sortingTask_eq_foldl, ih]
    rw [foldl_applyOp_cancelled]

theorem sortRun_state (cfg : SorterConfig) (cancelled : Bool) (root : RootDir) :
    (preparedOf cfg cancelled root).foldl (fun s t => sortingTask cfg t s)
        (initState cfg cancelled root) =
      List.foldl (applyOp cfg) (initState cfg cancelled root)
        (runOps cfg cancelled root) := by
  rw [foldl_tasks_eq_ops]
  rfl

theorem map_keyIf_of_forall_ne (g : DirPlan → DirPlan) (d : FsPath)
    (l : List DirPlan) (h : ∀ q ∈ l, q.dir ≠ d) :
    l.map (fun q => if q.dir = d then g q else q) = l := by
  induction l with
  | nil => rfl
  | cons p rest ih =>
    simp only [List.map_cons, if_neg (h p (List.mem_cons_self p rest))]
    rw [ih fun q hq => h q (List.mem_cons_of_mem p hq)]

theorem map_dir_map_of_dir_eq (f : DirPlan → DirPlan)
    (hf : ∀ p, (f p).dir = p.dir) (l : List DirPlan) :
    (l.map f).map DirPlan.dir = l.map DirPlan.dir := by
  rw [List.map_map]
  apply List.map_congr_left
  intro p _
  exact hf p

theorem nodup_middle_ne (l1 l2 : List DirPlan) (p : DirPlan)
    (hnd : ((l1 ++ p :: l2).map DirPlan.dir).Nodup) :
    (∀ q ∈ l1, q.dir ≠ p.dir) ∧ (∀ q ∈ l2, q.dir ≠ p.dir) := by
  rw [List.map_append, List.map_cons, List.nodup_append] at hnd
  obtain ⟨h1, h2, hdisj⟩ := hnd
  rw [List.nodup_cons] at h2
  constructor
  · intro q hq hqd
    exact hdisj (List.mem_map_of_mem DirPlan.dir hq)
      (by rw [hqd]; exact List.mem_cons_self _ _)
  · intro q hq hqd
    exact h2.1 (by rw [← hqd]; exact List.mem_map_of_mem DirPlan.dir hq)

theorem map_keyIf_middle (g : DirPlan → DirPlan) (l1 l2 : List DirPlan)
    (p : DirPlan) (hnd : ((l1 ++ p :: l2).map DirPlan.dir).Nodup) :
    (l1 ++ p :: l2).map (fun q => if q.dir = p.dir then g q else q) =
      l1 ++ g p :: l2 := by
  obtain ⟨h1, h2⟩ := nodup_middle_ne l1 l2 p hnd
  rw [List.map_append, List.map_cons]
  rw [map_keyIf_of_forall_ne g p.dir l1 h1, map_keyIf_of_forall_ne g p.dir l2 h2,
    if_pos rfl]

theorem map_keyIf_add_zero (d : FsPath) (l : List DirPlan) :
    l.map (fun p => if p.dir = d then { p with progress := p.progress + 0 } else p)
      = l := by
  have h : ∀ p ∈ l,
      (if p.dir = d then { p with progress := p.progress + 0 } else p) = p := by
    intro p _
    by_cases hp : p.dir = d
    · rw [if_pos hp]
      rfl
    · rw [if_neg hp]
  rw [List.map_congr_left h, List.map_id']

theorem foldl_entriesFileOps_dirs (cfg : SorterConfig) (d : FsPath)
    (es : List FsNode) : ∀ (st : SorterState),
    (st.dirs.map DirPlan.dir).Nodup →
    (List.foldl (applyOp cfg) st (entriesFileOps d es)).dirs =
      st.dirs.map (fun p =>
        if p.dir = d then { p with progress := p.progress + fileCount es } else p) := by
  induction es with
  | nil =>
    intro st _
    simp only [entriesFileOps, List.foldl_nil, fileCount]
    rw [map_keyIf_add_zero]
  | cons e rest ih =>
    cases e with
    | dir n pf sf sub =>
      intro st hnd
      simp only [entriesFileOps, fileCount]
      exact ih st hnd
    | file f =>
      intro st hnd
      simp only [entriesFileOps, List.foldl_cons, fileCount]
      have h1 : (applyOp cfg st (RunOp.fileOp d f)).dirs =
          st.dirs.map (fun p =>
            if p.dir = d then { p with progress := p.progress + 1 } else p) := by
        rw [show applyOp cfg st (RunOp.fileOp d f) = sorterMoveStep cfg d st f from rfl,
          sorterMoveStep_dirs, incrementDirProgress_eq_map st.dirs d hnd]
      have hnd1 : ((applyOp cfg st (RunOp.fileOp d f)).dirs.map DirPlan.dir).Nodup := by
        rw [h1, map_dir_map_of_dir_eq _ (fun p => by
          by_cases hp : p.dir = d
          · rw [if_pos hp]
          · rw [if_neg hp]) st.dirs]
        exact hnd
      rw [ih _ hnd1, h1, List.map_map]
      apply List.map_congr_left
      intro p _
      by_cases hpd : p.dir = d
      · simp [Function.comp, hpd]
        omega
      · simp [Function.comp, hpd]

theorem taskOps_dirs (cfg : SorterConfig) (c : Bool) (t : PreparedDir)
    (st : SorterState) (hnd : (st.dirs.map DirPlan.dir).Nodup) :
    (List.foldl (applyOp cfg) st (taskOps c t)).dirs =
      st.dirs.map (fun p =>
        if p.dir = t.plan.dir then
          (if t.sortFails then { p with progress := p.files }
           else { p with progress :=
              p.progress + (if c then 0 else fileCount t.entries) })
        else p) := by
  cases hsf : t.sortFails with
  | true =>
    simp only [taskOps, hsf, if_true]
    exact setDirProgressFull_eq_map st.dirs t.plan.dir hnd
  | false =>
    cases hc : c with
    | true =>
      simp only [taskOps, hsf, hc]
      exact (map_keyIf_add_zero t.plan.dir st.dirs).symm
    | false =>
      simp only [taskOps, hsf, hc]
      show (List.foldl (applyOp cfg) st
        (entriesFileOps t.plan.dir t.entries ++ [RunOp.finishOp])).dirs = _
      rw [List.foldl_append]
      exact foldl_entriesFileOps_dirs cfg t.plan.dir t.entries st hnd

theorem map_middle_update (f : DirPlan → DirPlan) (l1 l2 : List DirPlan)
    (p : DirPlan) (hf : ∀ q, q.dir ≠ p.dir → f q = q)
    (hnd : ((l1 ++ p :: l2).map DirPlan.dir).Nodup) :
    (l1 ++ p :: l2).map f = l1 ++ f p :: l2 := by
  obtain ⟨h1, h2⟩ := nodup_middle_ne l1 l2 p hnd
  have e1 : l1.map f = l1 := by
    rw [List.map_congr_left (fun q hq => hf q (h1 q hq)), List.map_id']
  have e2 : l2.map f = l2 := by
    rw [List.map_congr_left (fun q hq => hf q (h2 q hq)), List.map_id']
  rw [List.map_append, List.map_cons, e1, e2]

theorem taskUpdate_dir (c : Bool) (t : PreparedDir) :
    (taskUpdate c t).dir = t.plan.dir := by
  cases htu : t.sortFails <;> simp [taskUpdate, htu]

theorem foldl_tasksOps_dirs (cfg : SorterConfig) (c : Bool)
    (ts : List PreparedDir) :
    ∀ (rest : List DirPlan) (st : SorterState),
    st.dirs = rest ++ ts.map PreparedDir.plan →
    (st.dirs.map DirPlan.dir).Nodup →
    (List.foldl (applyOp cfg) st ((ts.map (taskOps c)).flatten)).dirs =
      rest ++ ts.map (taskUpdate c) := by
  induction ts with
  | nil =>
    intro rest st hst _
    simp only [List.map_nil, List.flatten_nil, List.foldl_nil]
    rw [hst]
    simp
  | cons t ts ih =>
    intro rest st hst hnd
    rw [List.map_cons] at hst
    rw [hst] at hnd
    simp only [List.map_cons, List.flatten_cons, List.foldl_append]
    have h1 := taskOps_dirs cfg c t st (by rw [hst]; exact hnd)
    rw [hst] at h1
    rw [map_middle_update _ rest (ts.map PreparedDir.plan) t.plan
      (fun q hq => if_neg hq) hnd] at h1
    have hdirs1 : (List.foldl (applyOp cfg) st (taskOps c t)).dirs =
        (rest ++ [taskUpdate c t]) ++ ts.map PreparedDir.plan := by
      rw [h1]
      simp [taskUpdate]
    have hnd1 : ((List.foldl (applyOp cfg) st (taskOps c t)).dirs.map
        DirPlan.dir).Nodup := by
      rw [hdirs1]
      have : ((rest ++ [taskUpdate c t]) ++ ts.map PreparedDir.plan).map
          DirPlan.dir = (rest ++ t.plan :: ts.map PreparedDir.plan).map
          DirPlan.dir := by
        simp [taskUpdate_dir]
      rw [this]
      exact hnd
    rw [ih (rest ++ [taskUpdate c t]) _ hdirs1 hnd1]
    simp

theorem prepareList_count (r : Bool) (path : FsPath) (es : List FsNode) :
    ∀ (acc : PrepAcc) (files : Nat),
    (prepareList r false path es acc files).2 = files + fileCount es := by
  induction es with
  | nil => intro acc files; rfl
  | cons e rest ih =>
    intro acc files
    cases e with
    | file f =>
      show (prepareList r false path rest acc (files + 1)).2 = _
      rw [ih acc (files + 1)]
      simp only [fileCount]
      omega
    | dir n pf sf sub =>
      cases hr : r with
      | true =>
        subst hr
        show (prepareList true false path rest
          (prepareSub true false path (FsNode.dir n pf sf sub) acc) files).2 = _
        rw [ih _ files]
        rfl
      | false =>
        subst hr
        show (prepareList false false path rest acc files).2 = _
        rw [ih acc files]
        rfl

mutual

theorem prepareSub_plans_good (r : Bool) (path : FsPath) (e : FsNode) :
    ∀ (acc : PrepAcc) (t : PreparedDir),
    t ∈ (prepareSub r false path e acc).plans →
    t ∈ acc.plans ∨
      (t.plan.progress = 0 ∧ t.plan.files = fileCount t.entries) := by
  cases e with
  | file f => exact fun acc t ht => Or.inl ht
  | dir n pf sf sub =>
    intro acc t
    cases hpf : pf with
    | true => exact fun ht => Or.inl ht
    | false =>
      intro ht
      rcases List.mem_append.mp ht with h | h
      · exact prepareList_plans_good r (path.joinpath n) sub acc 0 t h
      · rw [List.mem_singleton.mp h]
        refine Or.inr ⟨rfl, ?_⟩
        show (prepareList r false (path.joinpath n) sub acc 0).2 = fileCount sub
        rw [prepareList_count r (path.joinpath n) sub acc 0, Nat.zero_add]

theorem prepareList_plans_good (r : Bool) (path : FsPath) (es : List FsNode) :
    ∀ (acc : PrepAcc) (files : Nat) (t : PreparedDir),
    t ∈ (prepareList r false path es acc files).1.plans →
    t ∈ acc.plans ∨
      (t.plan.progress = 0 ∧ t.plan.files = fileCount t.entries) := by
  cases es with
  | nil => exact fun acc files t ht => Or.inl ht
  | cons e rest =>
    intro acc files t ht
    cases e with
    | file f => exact prepareList_plans_good r path rest acc (files + 1) t ht
    | dir n pf sf sub =>
      cases hr : r with
      | true =>
        subst hr
        rcases prepareList_plans_good true path rest
            (prepareSub true false path (FsNode.dir n pf sf sub) acc) files t ht
          with h | h
        · exact prepareSub_plans_good true path (FsNode.dir n pf sf sub) acc t h
        · exact Or.inr h
      | false =>
        subst hr
        exact prepareList_plans_good false path rest acc files t ht

end

theorem FsPath.segments_joinpath (p : FsPath) (s : String) :
    (p.joinpath s).segments = p.segments ++ [s] := rfl

mutual

theorem prepareSub_plans_nodup (r : Bool) (path : FsPath) (e : FsNode) :
    ∀ (acc : PrepAcc),
    wfNode e = true →
    ((acc.plans.map (fun t => t.plan.dir)).Nodup) →
    (∀ t ∈ acc.plans, ∀ s : List String,
      t.plan.dir.segments ≠ (path.joinpath (entryName e)).segments ++ s) →
    ((prepareSub r false path e acc).plans.map (fun t => t.plan.dir)).Nodup ∧
      ∀ t ∈ (prepareSub r false path e acc).plans,
        t ∈ acc.plans ∨ ∃ s : List String,
          t.plan.dir.segments = (path.joinpath (entryName e)).segments ++ s := by
  cases e with
  | file f =>
    intro acc _ hnd _
    exact ⟨hnd, fun t ht => Or.inl ht⟩
  | dir n pf sf sub =>
    intro acc
    cases hpf : pf with
    | true =>
      intro _ hnd _
      exact ⟨hnd, fun t ht => Or.inl ht⟩
    | false =>
      intro hwf hnd hext
      have hwf2 : (decide ((sub.map entryName).Nodup) && wfList sub) = true := hwf
      rw [Bool.and_eq_true] at hwf2
      have hnames : (sub.map entryName).Nodup := of_decide_eq_true hwf2.1
      have hext2 : ∀ t ∈ acc.plans, ∀ e2 ∈ sub, ∀ s : List String,
          t.plan.dir.segments ≠
            ((path.joinpath n).joinpath (entryName e2)).segments ++ s := by
        intro t ht e2 _ s heq
        apply hext t ht ([entryName e2] ++ s)
        rw [FsPath.segments_joinpath] at heq ⊢
        rw [heq, FsPath.segments_joinpath, List.append_assoc]
        rfl
      obtain ⟨hnd2, hmem2⟩ :=
        prepareList_plans_nodup r (path.joinpath n) sub acc 0 hwf2.2 hnames hnd hext2
      constructor
      · show (((prepareList r false (path.joinpath n) sub acc 0).1.plans ++
          [(⟨⟨path.joinpath n, (prepareList r false (path.joinpath n) sub acc 0).2, 0⟩,
            sf, sub⟩ : PreparedDir)]).map (fun t => t.plan.dir)).Nodup
        rw [List.map_append, List.nodup_append]
        refine ⟨hnd2, by simp, ?_⟩
        intro x hxL hxR
        simp only [List.map_cons, List.map_nil, List.mem_singleton] at hxR
        obtain ⟨t, ht, hdir⟩ := List.mem_map.mp hxL
        rcases hmem2 t ht with hacc | ⟨e2, _, s, hs⟩
        · apply hext t hacc []
          rw [List.append_nil, hdir, hxR]
          rfl
        · have hlen1 := congrArg List.length hs
          have hlen2 := congrArg (fun q : FsPath => q.segments.length) hdir
          have hlen3 := congrArg (fun q : FsPath => q.segments.length) hxR
          simp only [FsPath.segments_joinpath, List.length_append,
            List.length_cons, List.length_nil] at hlen1 hlen2 hlen3
          omega
      · intro t ht
        rcases List.mem_append.mp ht with h | h
        · rcases hmem2 t h with hacc | ⟨e2, _, s, hs⟩
          · exact Or.inl hacc
          · refine Or.inr ⟨[entryName e2] ++ s, ?_⟩
            rw [hs]
            rw [FsPath.segments_joinpath, FsPath.segments_joinpath,
              FsPath.segments_joinpath, List.append_assoc]
            rfl
        · rw [List.mem_singleton.mp h]
          exact Or.inr ⟨[], by rw [List.append_nil]; rfl⟩

theorem prepareList_plans_nodup (r : Bool) (path : FsPath) (es : List FsNode) :
    ∀ (acc : PrepAcc) (files : Nat),
    wfList es = true →
    (es.map entryName).Nodup →
    ((acc.plans.map (fun t => t.plan.dir)).Nodup) →
    (∀ t ∈ acc.plans, ∀ e2 ∈ es, ∀ s : List String,
      t.plan.dir.segments ≠ (path.joinpath (entryName e2)).segments ++ s) →
    (((prepareList r false path es acc files).1.plans.map
        (fun t => t.plan.dir)).Nodup ∧
      ∀ t ∈ (prepareList r false path es acc files).1.plans,
        t ∈ acc.plans ∨ ∃ e2 ∈ es, ∃ s : List String,
          t.plan.dir.segments = (path.joinpath (entryName e2)).segments ++ s) := by
  cases es with
  | nil =>
    intro acc files _ _ hnd _
    exact ⟨hnd, fun t ht => Or.inl ht⟩
  | cons e rest =>
    intro acc files hwf hnames hnd hext
    have hwf2 : (wfNode e && wfList rest) = true := hwf
    rw [Bool.and_eq_true] at hwf2
    rw [List.map_cons, List.nodup_cons] at hnames
    cases e with
    | file f =>
      obtain ⟨hnd3, hmem3⟩ := prepareList_plans_nodup r path rest acc (files + 1)
        hwf2.2 hnames.2 hnd
        (fun t ht e2 he2 => hext t ht e2 (List.mem_cons_of_mem _ he2))
      refine ⟨hnd3, fun t ht => ?_⟩
      rcases hmem3 t ht with h | ⟨e2, he2, s, hs⟩
      · exact Or.inl h
      · exact Or.inr ⟨e2, List.mem_cons_of_mem _ he2, s, hs⟩
    | dir n pf sf sub =>
      cases hr : r with
      | false =>
        subst hr
        obtain ⟨hnd3, hmem3⟩ := prepareList_plans_nodup false path rest acc files
          hwf2.2 hnames.2 hnd
          (fun t ht e2 he2 => hext t ht e2 (List.mem_cons_of_mem _ he2))
        refine ⟨hnd3, fun t ht => ?_⟩
        rcases hmem3 t ht with h | ⟨e2, he2, s, hs⟩
        · exact Or.inl h
        · exact Or.inr ⟨e2, List.mem_cons_of_mem _ he2, s, hs⟩
      | true =>
        subst hr
        obtain ⟨hndA, hmemA⟩ := prepareSub_plans_nodup true path
          (FsNode.dir n pf sf sub) acc hwf2.1 hnd
          (fun t ht => hext t ht _ (List.mem_cons_self _ _))
        have hext2 : ∀ t ∈ (prepareSub true false path
            (FsNode.dir n pf sf sub) acc).plans, ∀ e2 ∈ rest,
            ∀ s : List String,
            t.plan.dir.segments ≠ (path.joinpath (entryName e2)).segments ++ s := by
          intro t ht e2 he2 s heq
          rcases hmemA t ht with hacc | ⟨s1, hs1⟩
          · exact hext t hacc e2 (List.mem_cons_of_mem _ he2) s heq
          · rw [heq, FsPath.segments_joinpath] at hs1
            rw [FsPath.segments_joinpath] at hs1
            have hn : entryName (FsNode.dir n pf sf sub) = entryName e2 := by
              have hs2 : path.segments ++ ([entryName e2] ++ s) =
                  path.segments ++ ([entryName (FsNode.dir n pf sf sub)] ++ s1) := by
                rw [← List.append_assoc, ← List.append_assoc, hs1]
              have hs3 := List.append_cancel_left hs2
              exact ((List.cons_eq_cons.mp hs3).1).symm
            exact hnames.1 (hn ▸ List.mem_map_of_mem entryName he2)
        obtain ⟨hndB, hmemB⟩ := prepareList_plans_nodup true path rest
          (prepareSub true false path (FsNode.dir n pf sf sub) acc) files
          hwf2.2 hnames.2 hndA hext2
        refine ⟨hndB, fun t ht => ?_⟩
        rcases hmemB t ht with h | ⟨e2, he2, s, hs⟩
        · rcases hmemA t h with hacc | ⟨s1, hs1⟩
          · exact Or.inl hacc
          · exact Or.inr ⟨FsNode.dir n pf sf sub, List.mem_cons_self _ _, s1, hs1⟩
        · exact Or.inr ⟨e2, List.mem_cons_of_mem _ he2, s, hs⟩

end

theorem preparedOf_good (cfg : SorterConfig) (root : RootDir) (t : PreparedDir)
    (ht : t ∈ preparedOf cfg false root) :
    t.plan.progress = 0 ∧ t.plan.files = fileCount t.entries := by
  rw [preparedOf, List.mem_reverse] at ht
  cases hpf : root.prepFails with
  | true =>
    rw [hpf] at ht
    exact absurd ht (List.not_mem_nil t)
  | false =>
    rw [hpf] at ht
    rcases List.mem_append.mp ht with h | h
    · rcases prepareList_plans_good cfg.recursive root.path root.entries
        ⟨[], []⟩ 0 t h with hacc | hgood
      · exact absurd hacc (List.not_mem_nil t)
      · exact hgood
    · rw [List.mem_singleton.mp h]
      refine ⟨rfl, ?_⟩
      show (prepareList cfg.recursive false root.path root.entries ⟨[], []⟩ 0).2 =
        fileCount root.entries
      rw [prepareList_count, Nat.zero_add]

theorem preparedOf_nodup (cfg : SorterConfig) (root : RootDir)
    (hwf : wfRoot root = true) :
    (((preparedOf cfg false root).map PreparedDir.plan).map DirPlan.dir).Nodup := by
  rw [List.map_map, preparedOf, List.map_reverse, List.nodup_reverse]
  have hwf2 : (decide ((root.entries.map entryName).Nodup) &&
      wfList root.entries) = true := hwf
  rw [Bool.and_eq_true] at hwf2
  have hnames : (root.entries.map entryName).Nodup := of_decide_eq_true hwf2.1
  cases hpf : root.prepFails with
  | true => exact List.nodup_nil
  | false =>
    obtain ⟨hndL, hmemL⟩ := prepareList_plans_nodup cfg.recursive root.path
      root.entries ⟨[], []⟩ 0 hwf2.2 hnames (by simp)
      (fun t ht => absurd ht (List.not_mem_nil t))
    show (((prepareList cfg.recursive false root.path root.entries ⟨[], []⟩ 0).1.plans
        ++ [(⟨⟨root.path, (prepareList cfg.recursive false root.path root.entries
          ⟨[], []⟩ 0).2, 0⟩, root.sortFails, root.entries⟩ : PreparedDir)]).map
        (fun t => (PreparedDir.plan t).dir)).Nodup
    rw [List.map_append, List.nodup_append]
    refine ⟨hndL, by simp, ?_⟩
    intro x hxL hxR
    simp only [List.map_cons, List.map_nil, List.mem_singleton] at hxR
    obtain ⟨t, ht, hdir⟩ := List.mem_map.mp hxL
    rcases hmemL t ht with hacc | ⟨e2, _, s, hs⟩
    · exact absurd hacc (List.not_mem_nil t)
    · have hlen1 := congrArg List.length hs
      have hlen2 := congrArg (fun q : FsPath => q.segments.length) hdir
      have hlen3 := congrArg (fun q : FsPath => q.segments.length) hxR
      simp only [FsPath.segments_joinpath, List.length_append,
        List.length_cons, List.length_nil] at hlen1 hlen2 hlen3
      omega

theorem getProgress_full (l : List DirPlan)
    (h : ∀ p ∈ l, p.progress = p.files) : getProgress l = 1 := by
  unfold getProgress
  have hsum : (l.map DirPlan.progress).sum = (l.map DirPlan.files).sum := by
    rw [List.map_congr_left h]
  by_cases h0 : (l.map DirPlan.files).sum = 0
  · rw [if_pos h0]
  · rw [if_neg h0, hsum, div_self]
    exact_mod_cast h0

theorem run_final_dirs (cfg : SorterConfig) (root : RootDir)
    (hwf : wfRoot root = true) :
    (sortRun cfg false root).dirs =
      (preparedOf cfg false root).map (taskUpdate false) := by
  show ((preparedOf cfg false root).foldl (fun s t => sortingTask cfg t s)
    (initState cfg false root)).dirs = _
  rw [foldl_tasks_eq_ops]
  exact foldl_tasksOps_dirs cfg false (preparedOf cfg false root) []
    (initState cfg false root) rfl (preparedOf_nodup cfg root hwf)

theorem run_progress_one (cfg : SorterConfig) (root : RootDir)
    (hwf : wfRoot root = true) :
    getProgress (sortRun cfg false root).dirs = 1 := by
  rw [run_final_dirs cfg root hwf]
  apply getProgress_full
  intro p hp
  obtain ⟨t, ht, rfl⟩ := List.mem_map.mp hp
  obtain ⟨hprog, hfiles⟩ := preparedOf_good cfg root t ht
  cases hsf : t.sortFails with
  | true => simp [taskUpdate, hsf]
  | false => simp [taskUpdate, hsf, hprog, hfiles]

theorem sortingTask_cancelled (cfg : SorterConfig) (t : PreparedDir)
    (st : SorterState) : (sortingTask cfg t st).cancelled = st.cancelled := by
  rw [sortingTask_eq_foldl]
  exact foldl_applyOp_cancelled cfg (taskOps st.cancelled t) st

theorem foldl_sortingTask_cancelled (cfg : SorterConfig)
    (ts : List PreparedDir) : ∀ (st : SorterState),
    (ts.foldl (fun s t => sortingTask cfg t s) st).cancelled = st.cancelled := by
  induction ts with
  | nil => intro st; rfl
  | cons t ts ih =>
    intro st
    rw [List.foldl_cons, ih, sortingTask_cancelled]

/-- C6: a sorting task whose directory listing fails sets that directory's
progress counter to its file count, leaves every other plan untouched, emits
exactly one error event for that directory followed only by the terminal
finish marker, and a run over a well-formed root still ends with aggregate
progress 1 and one finish callback. -/
theorem exifSort_C6 (cfg : SorterConfig) (st : SorterState) (t : PreparedDir)
    (root : RootDir) (hsf : t.sortFails = true)
    (hnd : (st.dirs.map DirPlan.dir).Nodup) (hwf : wfRoot root = true) :
    (sortingTask cfg t st).dirs =
      st.dirs.map (fun p =>
        if p.dir = t.plan.dir then { p with progress := p.files } else p) ∧
    (∃ v1 v2 : ℚ, (sortingTask cfg t st).queue =
      st.queue ++ [⟨.error (.listDirError t.plan.dir), v1⟩, ⟨.finish, v2⟩]) ∧
    getProgress (sortRun cfg false root).dirs = 1 ∧
    (sortRun cfg false root).finishCalls = 1 := by
  refine ⟨?_, ?_, run_progress_one cfg root hwf, rfl⟩
  · simp only [sortingTask, hsf]
    show (triggerEvent (triggerEvent
      { st with dirs := setDirProgressFull st.dirs t.plan.dir }
      (.error (.listDirError t.plan.dir)) none) .finish none).dirs = _
    simp only [triggerEvent]
    exact setDirProgressFull_eq_map st.dirs t.plan.dir hnd
  · simp only [sortingTask, hsf]
    refine ⟨getProgress (setDirProgressFull st.dirs t.plan.dir),
      getProgress (setDirProgressFull st.dirs t.plan.dir), ?_⟩
    show (triggerEvent (triggerEvent
      { st with dirs := setDirProgressFull st.dirs t.plan.dir }
      (.error (.listDirError t.plan.dir)) none) .finish none).queue = _
    simp only [triggerEvent]
    rw [List.append_assoc]
    rfl

theorem exifSort_C6_witness :
    (sortingTask cfgW ⟨⟨⟨["in", "bad"]⟩, 1, 0⟩, true, [.file fNoneW]⟩ stW).dirs =
      stW.dirs.map (fun p =>
        if p.dir = (⟨["in", "bad"]⟩ : FsPath) then { p with progress := p.files }
        else p) ∧
    (∃ v1 v2 : ℚ,
      (sortingTask cfgW ⟨⟨⟨["in", "bad"]⟩, 1, 0⟩, true, [.file fNoneW]⟩ stW).queue =
        stW.queue ++ [⟨.error (.listDirError ⟨["in", "bad"]⟩), v1⟩, ⟨.finish, v2⟩]) ∧
    getProgress (sortRun cfgW false rootSortFailW).dirs = 1 ∧
    (sortRun cfgW false rootSortFailW).finishCalls = 1 :=
  exifSort_C6 cfgW stW ⟨⟨⟨["in", "bad"]⟩, 1, 0⟩, true, [.file fNoneW]⟩
    rootSortFailW rfl (by decide) (by decide)

theorem getProgress_zero_files (l : List DirPlan)
    (h : (l.map DirPlan.files).sum = 0) : getProgress l = 1 := by
  unfold getProgress
  rw [if_pos h]

theorem prepareDir_cancelled_true (r : Bool) (path : FsPath) (sf : Bool)
    (entries : List FsNode) :
    prepareDir r true path false sf entries ⟨[], []⟩ =
      ⟨[⟨⟨path, 0, 0⟩, sf, entries⟩], []⟩ := by
  unfold prepareDir
  rw [if_neg (by simp)]
  rw [prepareList_cancelled_true]
  rfl

theorem preparedOf_cancelled (cfg : SorterConfig) (root : RootDir)
    (hp : root.prepFails = false) :
    preparedOf cfg true root =
      [⟨⟨root.path, 0, 0⟩, root.sortFails, root.entries⟩] := by
  rw [preparedOf, hp, prepareDir_cancelled_true]
  rfl

theorem prepEventsOf_cancelled (cfg : SorterConfig) (root : RootDir)
    (hp : root.prepFails = false) :
    prepEventsOf cfg true root = [] := by
  rw [prepEventsOf, hp, prepareDir_cancelled_true]

/-- C10: with the cancellation flag set before a run over a readable input
root, the run leaves the flag set, moves no source file, dispatches no move
or skip callback, and still invokes the finish callback exactly once with
aggregate progress 1. -/
theorem exifSort_C10 (cfg : SorterConfig) (root : RootDir)
    (hp : root.prepFails = false) :
    (sortRun cfg true root).cancelled = true ∧
    (sortRun cfg true root).finishCalls = 1 ∧
    (sortRun cfg true root).srcFiles = entriesFiles root.path root.entries ∧
    (∀ c ∈ (sortRun cfg true root).callbacks,
      (∀ src dst q, c ≠ .onMove src dst q) ∧ (∀ p q, c ≠ .onSkip p q)) ∧
    getProgress (sortRun cfg true root).dirs = 1 := by
  have hprep := preparedOf_cancelled cfg root hp
  have hev := prepEventsOf_cancelled cfg root hp
  have hinit : initState cfg true root =
      ⟨[⟨root.path, 0, 0⟩], [], entriesFiles root.path root.entries, true⟩ := by
    rw [initState, hprep, hev]
    rfl
  have hstF : (preparedOf cfg true root).foldl (fun s t => sortingTask cfg t s)
      (initState cfg true root) =
      sortingTask cfg ⟨⟨root.path, 0, 0⟩, root.sortFails, root.entries⟩
        ⟨[⟨root.path, 0, 0⟩], [], entriesFiles root.path root.entries, true⟩ := by
    rw [hprep, hinit]
    rfl
  have hloop := sortingTaskLoop_cancelled_true cfg root.path root.entries
    ⟨[⟨root.path, 0, 0⟩], [], entriesFiles root.path root.entries, true⟩ rfl
  have htask : sortingTask cfg ⟨⟨root.path, 0, 0⟩, root.sortFails, root.entries⟩
      ⟨[⟨root.path, 0, 0⟩], [], entriesFiles root.path root.entries, true⟩ =
      (if root.sortFails then
        triggerEvent
          (triggerEvent
            ⟨setDirProgressFull [⟨root.path, 0, 0⟩] root.path, [],
              entriesFiles root.path root.entries, true⟩
            (.error (.listDirError root.path)) none)
          .finish none
       else
        triggerEvent
          ⟨[⟨root.path, 0, 0⟩], [], entriesFiles root.path root.entries, true⟩
          .finish none) := by
    cases hsf : root.sortFails with
    | true => rfl
    | false =>
      rw [if_neg (by simp)]
      show triggerEvent (sortingTaskLoop cfg root.path root.entries
        ⟨[⟨root.path, 0, 0⟩], [], entriesFiles root.path root.entries, true⟩)
        .finish none = _
      rw [hloop]
  have hset : setDirProgressFull [(⟨root.path, 0, 0⟩ : DirPlan)] root.path =
      [⟨root.path, 0, 0⟩] := by
    unfold setDirProgressFull setFullFirstMatch
    simp
  rw [hset] at htask
  refine ⟨?_, rfl, ?_, ?_, ?_⟩
  · show ((preparedOf cfg true root).foldl (fun s t => sortingTask cfg t s)
      (initState cfg true root)).cancelled = true
    rw [hstF, htask]
    cases root.sortFails <;> rfl
  · show ((preparedOf cfg true root).foldl (fun s t => sortingTask cfg t s)
      (initState cfg true root)).srcFiles = entriesFiles root.path root.entries
    rw [hstF, htask]
    cases root.sortFails <;> rfl
  · show ∀ c ∈ (((preparedOf cfg true root).foldl (fun s t => sortingTask cfg t s)
      (initState cfg true root)).queue.filterMap dispatchEvent),
      (∀ src dst q, c ≠ .onMove src dst q) ∧ (∀ p q, c ≠ .onSkip p q)
    rw [hstF, htask]
    cases root.sortFails with
    | true =>
      intro c hc
      simp [triggerEvent, dispatchEvent] at hc
      subst hc
      exact ⟨fun src dst q => by simp, fun p q => by simp⟩
    | false =>
      intro c hc
      simp [triggerEvent, dispatchEvent] at hc
  · show getProgress (((preparedOf cfg true root).foldl
      (fun s t => sortingTask cfg t s) (initState cfg true root)).dirs) = 1
    rw [hstF, htask]
    cases root.sortFails with
    | true =>
      exact getProgress_zero_files _ (by simp [triggerEvent])
    | false =>
      exact getProgress_zero_files _ (by simp [triggerEvent])

theorem exifSort_C10_witness :
    (sortRun cfgW true rootW).cancelled = true ∧
    (sortRun cfgW true rootW).finishCalls = 1 ∧
    (sortRun cfgW true rootW).srcFiles = entriesFiles rootW.path rootW.entries ∧
    (∀ c ∈ (sortRun cfgW true rootW).callbacks,
      (∀ src dst q, c ≠ .onMove src dst q) ∧ (∀ p q, c ≠ .onSkip p q)) ∧
    getProgress (sortRun cfgW true rootW).dirs = 1 :=
  exifSort_C10 cfgW rootW rfl

theorem opsKeyCount_append (d : FsPath) (l1 l2 : List RunOp) :
    opsKeyCount d (l1 ++ l2) = opsKeyCount d l1 + opsKeyCount d l2 := by
  induction l1 with
  | nil => simp [opsKeyCount]
  | cons op rest ih =>
    cases op with
    | fileOp d2 f => simp [opsKeyCount, ih]; omega
    | taskFailOp d2 => simp [opsKeyCount, ih]
    | finishOp => simp [opsKeyCount, ih]

theorem opsKeyCount_entriesFileOps (d d2 : FsPath) (es : List FsNode) :
    opsKeyCount d (entriesFileOps d2 es) =
      if d2 = d then fileCount es else 0 := by
  induction es with
  | nil => simp [entriesFileOps, opsKeyCount, fileCount]
  | cons e rest ih =>
    cases e with
    | file f =>
      simp only [entriesFileOps, opsKeyCount, ih, fileCount]
      by_cases h : d2 = d
      · simp [h]
        omega
      · simp [h]
    | dir n pf sf sub => simp only [entriesFileOps, ih, fileCount]

theorem opsKeyCount_taskOps_le (d : FsPath) (c : Bool) (t : PreparedDir) :
    opsKeyCount d (taskOps c t) ≤ fileCount t.entries := by
  cases hsf : t.sortFails with
  | true => simp [taskOps, hsf, opsKeyCount_append, opsKeyCount]
  | false =>
    cases hc : c with
    | true => simp [taskOps, hsf, opsKeyCount_append, opsKeyCount]
    | false =>
      simp only [taskOps, hsf, hc, Bool.false_eq_true, if_false,
        opsKeyCount_append, opsKeyCount, opsKeyCount_entriesFileOps]
      by_cases h : t.plan.dir = d
      · simp [h]
      · simp [h]

theorem opsKeyCount_taskOps_ne (d : FsPath) (c : Bool) (t : PreparedDir)
    (h : t.plan.dir ≠ d) : opsKeyCount d (taskOps c t) = 0 := by
  cases hsf : t.sortFails with
  | true => simp [taskOps, hsf, opsKeyCount_append, opsKeyCount]
  | false =>
    cases hc : c with
    | true => simp [taskOps, hsf, opsKeyCount_append, opsKeyCount]
    | false =>
      simp only [taskOps, hsf, hc, Bool.false_eq_true, if_false,
        opsKeyCount_append, opsKeyCount, opsKeyCount_entriesFileOps]
      simp [h]

theorem opsKeyCount_taskOps_cancelled (d : FsPath) (t : PreparedDir) :
    opsKeyCount d (taskOps true t) = 0 := by
  cases hsf : t.sortFails with
  | true => simp [taskOps, hsf, opsKeyCount_append, opsKeyCount]
  | false => simp [taskOps, hsf, opsKeyCount_append, opsKeyCount]

theorem taskFail_not_mem_entriesFileOps (d d2 : FsPath) (es : List FsNode) :
    RunOp.taskFailOp d ∉ entriesFileOps d2 es := by
  induction es with
  | nil => simp [entriesFileOps]
  | cons e rest ih =>
    cases e with
    | file f => simp [entriesFileOps, ih]
    | dir n pf sf sub => simpa [entriesFileOps] using ih

theorem opsSane_entriesFileOps (d : FsPath) (es : List FsNode) :
    OpsSane (entriesFileOps d es) := by
  induction es with
  | nil => trivial
  | cons e rest ih =>
    cases e with
    | file f => exact ih
    | dir n pf sf sub => exact ih

theorem opsSane_append (l1 l2 : List RunOp) (h1 : OpsSane l1) (h2 : OpsSane l2)
    (h3 : ∀ d, RunOp.taskFailOp d ∈ l1 → opsKeyCount d l2 = 0) :
    OpsSane (l1 ++ l2) := by
  induction l1 with
  | nil => exact h2
  | cons op rest ih =>
    cases op with
    | fileOp d f =>
      exact ih h1 (fun d2 hm => h3 d2 (List.mem_cons_of_mem _ hm))
    | taskFailOp d =>
      refine ⟨?_, ih h1.2 (fun d2 hm => h3 d2 (List.mem_cons_of_mem _ hm))⟩
      show opsKeyCount d (rest ++ l2) = 0
      rw [opsKeyCount_append, h1.1, h3 d (List.mem_cons_self _ _)]
    | finishOp =>
      exact ih h1 (fun d2 hm => h3 d2 (List.mem_cons_of_mem _ hm))

theorem opsSane_taskOps (c : Bool) (t : PreparedDir) : OpsSane (taskOps c t) := by
  unfold taskOps
  apply opsSane_append
  · by_cases hsf : t.sortFails = true
    · rw [if_pos hsf]
      exact ⟨rfl, trivial⟩
    · rw [if_neg hsf]
      by_cases hc : c = true
      · rw [if_pos hc]
        trivial
      · rw [if_neg hc]
        exact opsSane_entriesFileOps _ _
  · trivial
  · intro d _
    rfl

theorem taskFail_mem_taskOps (d : FsPath) (c : Bool) (t : PreparedDir)
    (h : RunOp.taskFailOp d ∈ taskOps c t) : d = t.plan.dir := by
  unfold taskOps at h
  rcases List.mem_append.mp h with h1 | h1
  · by_cases hsf : t.sortFails = true
    · rw [if_pos hsf, List.mem_singleton] at h1
      injection h1
    · rw [if_neg hsf] at h1
      by_cases hc : c = true
      · rw [if_pos hc] at h1
        exact absurd h1 (List.not_mem_nil _)
      · rw [if_neg hc] at h1
        exact absurd h1 (taskFail_not_mem_entriesFileOps d t.plan.dir t.entries)
  · rw [List.mem_singleton] at h1
    exact absurd h1 (by simp)

theorem opsKeyCount_flatten_zero (d : FsPath) (c : Bool)
    (ts : List PreparedDir) (h : ∀ t ∈ ts, t.plan.dir ≠ d) :
    opsKeyCount d ((ts.map (taskOps c)).flatten) = 0 := by
  induction ts with
  | nil => rfl
  | cons t rest ih =>
    simp only [List.map_cons, List.flatten_cons, opsKeyCount_append]
    rw [opsKeyCount_taskOps_ne d c t (h t (List.mem_cons_self _ _)),
      ih (fun q hq => h q (List.mem_cons_of_mem _ hq))]

theorem opsSane_flatten (c : Bool) (ts : List PreparedDir)
    (hnd : (ts.map (fun t => t.plan.dir)).Nodup) :
    OpsSane ((ts.map (taskOps c)).flatten) := by
  induction ts with
  | nil => trivial
  | cons t rest ih =>
    rw [List.map_cons, List.nodup_cons] at hnd
    simp only [List.map_cons, List.flatten_cons]
    apply opsSane_append
    · exact opsSane_taskOps c t
    · exact ih hnd.2
    · intro d hm
      have hd := taskFail_mem_taskOps d c t hm
      apply opsKeyCount_flatten_zero
      intro q hq hqd
      apply hnd.1
      rw [← hd, ← hqd]
      exact List.mem_map_of_mem _ hq

theorem opsKeyCount_flatten_le (c : Bool) (ts : List PreparedDir)
    (t0 : PreparedDir) (hmem : t0 ∈ ts)
    (hnd : (ts.map (fun t => t.plan.dir)).Nodup) :
    opsKeyCount t0.plan.dir ((ts.map (taskOps c)).flatten) ≤
      fileCount t0.entries := by
  induction ts with
  | nil => simp at hmem
  | cons t rest ih =>
    rw [List.map_cons, List.nodup_cons] at hnd
    simp only [List.map_cons, List.flatten_cons, opsKeyCount_append]
    rcases List.mem_cons.mp hmem with rfl | hmem2
    · rw [opsKeyCount_flatten_zero t0.plan.dir c rest
        (fun q hq hqd => hnd.1 (hqd ▸ List.mem_map_of_mem _ hq))]
      have := opsKeyCount_taskOps_le t0.plan.dir c t0
      omega
    · rw [opsKeyCount_taskOps_ne _ c t
        (fun hd => hnd.1 (hd ▸ List.mem_map_of_mem _ hmem2))]
      have := ih hmem2 hnd.2
      omega

theorem opsKeyCount_flatten_cancelled (d : FsPath) (ts : List PreparedDir) :
    opsKeyCount d ((ts.map (taskOps true)).flatten) = 0 := by
  induction ts with
  | nil => rfl
  | cons t rest ih =>
    simp only [List.map_cons, List.flatten_cons, opsKeyCount_append,
      opsKeyCount_taskOps_cancelled, ih]

theorem opsSane_flatten_cancelled (ts : List PreparedDir) :
    OpsSane ((ts.map (taskOps true)).flatten) := by
  induction ts with
  | nil => trivial
  | cons t rest ih =>
    simp only [List.map_cons, List.flatten_cons]
    apply opsSane_append
    · exact opsSane_taskOps true t
    · exact ih
    · intro d _
      exact opsKeyCount_flatten_cancelled d rest

theorem preparedOf_prepFails (cfg : SorterConfig) (c : Bool) (root : RootDir)
    (hp : root.prepFails = true) : preparedOf cfg c root = [] := by
  rw [preparedOf, hp]
  rfl

theorem runInv_init (cfg : SorterConfig) (cancelled : Bool) (root : RootDir)
    (hwf : wfRoot root = true) :
    RunInv (initState cfg cancelled root) (runOps cfg cancelled root) := by
  cases cancelled with
  | false =>
    have hnd := preparedOf_nodup cfg root hwf
    have hnd2 : ((preparedOf cfg false root).map (fun t => t.plan.dir)).Nodup := by
      rw [List.map_map] at hnd
      exact hnd
    refine ⟨hnd, opsSane_flatten false (preparedOf cfg false root) hnd2, ?_⟩
    intro p hp
    obtain ⟨t, ht, rfl⟩ := List.mem_map.mp hp
    obtain ⟨hprog, hfiles⟩ := preparedOf_good cfg root t ht
    rw [hprog, hfiles, runOps]
    have hb := opsKeyCount_flatten_le false (preparedOf cfg false root) t ht hnd2
    omega
  | true =>
    refine ⟨?_, opsSane_flatten_cancelled (preparedOf cfg true root), ?_⟩
    · cases hp : root.prepFails with
      | true =>
        rw [show (initState cfg true root).dirs =
          (preparedOf cfg true root).map PreparedDir.plan from rfl]
        rw [preparedOf_prepFails cfg true root hp]
        exact List.nodup_nil
      | false =>
        rw [show (initState cfg true root).dirs =
          (preparedOf cfg true root).map PreparedDir.plan from rfl]
        rw [preparedOf_cancelled cfg root hp]
        simp
    · intro p hp
      rw [runOps, opsKeyCount_flatten_cancelled]
      have hp2 : p ∈ (preparedOf cfg true root).map PreparedDir.plan := hp
      cases hpf : root.prepFails with
      | true =>
        rw [preparedOf_prepFails cfg true root hpf] at hp2
        exact absurd hp2 (List.not_mem_nil p)
      | false =>
        rw [preparedOf_cancelled cfg root hpf] at hp2
        simp only [List.map_cons, List.map_nil, List.mem_singleton] at hp2
        subst hp2
        simp

theorem dirsMono_refl (l : List DirPlan) : DirsMono l l := by
  unfold DirsMono
  rw [List.forall₂_same]
  exact fun p _ => ⟨rfl, rfl, le_refl _⟩

theorem dirsMono_map (l : List DirPlan) (f : DirPlan → DirPlan)
    (hf : ∀ p ∈ l, (f p).dir = p.dir ∧ (f p).files = p.files ∧
      p.progress ≤ (f p).progress) :
    DirsMono l (l.map f) := by
  unfold DirsMono
  rw [List.forall₂_map_right_iff, List.forall₂_same]
  exact hf

theorem runInv_step (cfg : SorterConfig) (st : SorterState) (op : RunOp)
    (ops : List RunOp) (h : RunInv st (op :: ops)) :
    RunInv (applyOp cfg st op) ops ∧ DirsMono st.dirs (applyOp cfg st op).dirs := by
  obtain ⟨hnd, hsane, hcap⟩ := h
  cases op with
  | finishOp =>
    exact ⟨⟨hnd, hsane, fun p hp => hcap p hp⟩, dirsMono_refl st.dirs⟩
  | fileOp d f =>
    have hdirs : (applyOp cfg st (RunOp.fileOp d f)).dirs =
        st.dirs.map (fun p =>
          if p.dir = d then { p with progress := p.progress + 1 } else p) := by
      rw [show applyOp cfg st (RunOp.fileOp d f) = sorterMoveStep cfg d st f
        from rfl, sorterMoveStep_dirs, incrementDirProgress_eq_map st.dirs d hnd]
    have hptwise : ∀ p ∈ st.dirs,
        ((fun p => if p.dir = d then { p with progress := p.progress + 1 } else p) p).dir = p.dir ∧
        ((fun p => if p.dir = d then { p with progress := p.progress + 1 } else p) p).files = p.files ∧
        p.progress ≤ ((fun p => if p.dir = d then { p with progress := p.progress + 1 } else p) p).progress := by
      intro p _
      by_cases hpd : p.dir = d
      · simp [hpd]
      · simp [hpd]
    refine ⟨⟨?_, hsane, ?_⟩, ?_⟩
    · rw [hdirs, map_dir_map_of_dir_eq _ (fun p => (by
        by_cases hpd : p.dir = d
        · simp [hpd]
        · simp [hpd])) st.dirs]
      exact hnd
    · intro p2 hp2
      rw [hdirs] at hp2
      obtain ⟨p, hp, rfl⟩ := List.mem_map.mp hp2
      have hc := hcap p hp
      by_cases hpd : p.dir = d
      · simp only [if_pos hpd]
        have hcount : opsKeyCount p.dir (RunOp.fileOp d f :: ops) =
            1 + opsKeyCount p.dir ops := by
          show (if d = p.dir then 1 else 0) + opsKeyCount p.dir ops = _
          rw [if_pos hpd.symm]
        rw [hcount] at hc
        show p.progress + 1 + opsKeyCount p.dir ops ≤ p.files
        omega
      · simp only [if_neg hpd]
        have hcount : opsKeyCount p.dir (RunOp.fileOp d f :: ops) =
            opsKeyCount p.dir ops := by
          show (if d = p.dir then 1 else 0) + opsKeyCount p.dir ops = _
          rw [if_neg (fun hx => hpd hx.symm)]
          omega
        rw [hcount] at hc
        exact hc
    · rw [hdirs]
      exact dirsMono_map st.dirs _ hptwise
  | taskFailOp d =>
    have hdirs : (applyOp cfg st (RunOp.taskFailOp d)).dirs =
        st.dirs.map (fun p =>
          if p.dir = d then { p with progress := p.files } else p) := by
      rw [show (applyOp cfg st (RunOp.taskFailOp d)).dirs =
        setDirProgressFull st.dirs d from rfl,
        setDirProgressFull_eq_map st.dirs d hnd]
    have hsane2 : opsKeyCount d ops = 0 ∧ OpsSane ops := hsane
    refine ⟨⟨?_, hsane2.2, ?_⟩, ?_⟩
    · rw [hdirs, map_dir_map_of_dir_eq _ (fun p => (by
        by_cases hpd : p.dir = d
        · simp [hpd]
        · simp [hpd])) st.dirs]
      exact hnd
    · intro p2 hp2
      rw [hdirs] at hp2
      obtain ⟨p, hp, rfl⟩ := List.mem_map.mp hp2
      have hc := hcap p hp
      by_cases hpd : p.dir = d
      · rw [if_pos hpd]
        show p.files + opsKeyCount ({ p with progress := p.files } : DirPlan).dir ops ≤ p.files
        show p.files + opsKeyCount p.dir ops ≤ p.files
        rw [hpd, hsane2.1]
        omega
      · rw [if_neg hpd]
        exact hc
    · rw [hdirs]
      apply dirsMono_map
      intro p hp
      by_cases hpd : p.dir = d
      · have hc := hcap p hp
        rw [if_pos hpd]
        refine ⟨rfl, rfl, ?_⟩
        show p.progress ≤ p.files
        omega
      · rw [if_neg hpd]
        exact ⟨rfl, rfl, le_refl _⟩

theorem runInv_foldl (cfg : SorterConfig) (l1 : List RunOp) :
    ∀ (st : SorterState) (l2 : List RunOp), RunInv st (l1 ++ l2) →
    RunInv (List.foldl (applyOp cfg) st l1) l2 := by
  induction l1 with
  | nil => exact fun st l2 h => h
  | cons op rest ih =>
    intro st l2 h
    rw [List.foldl_cons]
    exact ih _ l2 (runInv_step cfg st op (rest ++ l2) h).1

/-- C7: at every step of the sorting phase of a run over a well-formed tree,
every plan's progress counter stays within 0 and its file count, and the
next transformation leaves every plan's directory and file count unchanged
while never decreasing its progress counter. -/
theorem exifSort_C7 (cfg : SorterConfig) (cancelled : Bool) (root : RootDir)
    (hwf : wfRoot root = true) (l1 l2 : List RunOp)
    (hsplit : runOps cfg cancelled root = l1 ++ l2) :
    DirsBounded
      (List.foldl (applyOp cfg) (initState cfg cancelled root) l1).dirs ∧
    ∀ op l3, l2 = op :: l3 →
      DirsMono (List.foldl (applyOp cfg) (initState cfg cancelled root) l1).dirs
        (applyOp cfg (List.foldl (applyOp cfg) (initState cfg cancelled root) l1)
          op).dirs := by
  have hinv0 := runInv_init cfg cancelled root hwf
  rw [hsplit] at hinv0
  have hinv := runInv_foldl cfg l1 (initState cfg cancelled root) l2 hinv0
  constructor
  · intro p hp
    have := hinv.2.2 p hp
    omega
  · intro op l3 hl
    subst hl
    exact (runInv_step cfg _ op l3 hinv).2

theorem exifSort_C7_witness :
    DirsBounded
      (List.foldl (applyOp cfgW) (initState cfgW false rootW) []).dirs ∧
    ∀ op l3, runOps cfgW false rootW = op :: l3 →
      DirsMono (List.foldl (applyOp cfgW) (initState cfgW false rootW) []).dirs
        (applyOp cfgW (List.foldl (applyOp cfgW) (initState cfgW false rootW) [])
          op).dirs :=
  exifSort_C7 cfgW false rootW (by decide) [] (runOps cfgW false rootW) rfl
